import Mathlib

/-!
Verification of the hackathon commit-history review system (victorro7/uhc).

This file gives a shallow embedding of the violation-detection engine
(`src/core/analyzer.py`), the code-similarity sub-engine
(`src/core/code_comparison.py`, including the parts of Python's
`difflib.SequenceMatcher` it calls), the data models (`src/core/models.py`),
and the per-team driver loop (`main.py`), and proves or refutes the frozen
claims about them.

Modelling conventions:
* Python strings are modelled as `List Char` (with `String` wrappers where
  convenient); Python `str.lower` on the ASCII range is `Char.toLower`.
* Timezone-aware timestamps are modelled as `Int` epoch seconds; a
  `timedelta(hours=h)` is `h * 3600` seconds.
* Python `int` is `Int`; `float` similarity ratios are modelled as `ℚ`
  (difflib's ratio is `2*M/T` for integers `M`, `T`, which is exact).
* `dict`s used as default-0 integer tables are modelled as functions
  `Nat → Nat`; sets of strings are modelled as duplicate-free lists.
-/

namespace UHC

/-! ## Python character/string primitives -/

/-- Python's `\s` character class (ASCII range), as used by `re.sub(r'\s+', ...)`,
`str.strip()` and `str.lstrip()`. -/
def pyIsSpace (c : Char) : Bool :=
  c = ' ' || c = '\t' || c = '\n' || c = '\r' || c = '\x0b' || c = '\x0c'

/-- `str.lower` on a character (ASCII). -/
def pyLowerChar (c : Char) : Char := c.toLower

/-- `str.lower` on a string. -/
def pyLowerL (l : List Char) : List Char := l.map pyLowerChar

/-- `str.strip()`: drop leading and trailing whitespace. -/
def pyStripL (l : List Char) : List Char :=
  ((l.dropWhile pyIsSpace).reverse.dropWhile pyIsSpace).reverse

/-- Does `needle` occur as a prefix of `hay`? (helper for Python's `in`). -/
def listHasPrefix (needle hay : List Char) : Bool :=
  match needle, hay with
  | [], _ => true
  | _ :: _, [] => false
  | n :: ns, h :: hs => n = h && listHasPrefix ns hs

/-- Python's substring test `needle in hay`. -/
def listHasInfix (needle hay : List Char) : Bool :=
  match hay with
  | [] => listHasPrefix needle []
  | _ :: rest => listHasPrefix needle hay || listHasInfix needle rest

/-- Python `needle in hay` on strings. -/
def pyContains (hay needle : String) : Bool :=
  listHasInfix needle.toList hay.toList

/-- Drop the rest of the current line, keeping the newline itself
(the `$` of a MULTILINE pattern matches just before the `\n`). -/
def dropLineRest (l : List Char) : List Char := l.dropWhile (· ≠ '\n')

/-- Stage 1: `re.sub(r'#.*?$', '', content, flags=re.MULTILINE)`.
The `fuel` parameter only bounds recursion depth; every step's argument is
strictly shorter than the previous one, so `length + 1` fuel never runs out. -/
def stripHashCommentsF : Nat → List Char → List Char
  | 0, l => l
  | _ + 1, [] => []
  | fuel + 1, c :: rest =>
    if c = '#' then stripHashCommentsF fuel (dropLineRest rest)
    else c :: stripHashCommentsF fuel rest

def stripHashComments (l : List Char) : List Char :=
  stripHashCommentsF (l.length + 1) l

/-- Stage 2: `re.sub(r'//.*?$', '', content, flags=re.MULTILINE)`. -/
def stripSlashCommentsF : Nat → List Char → List Char
  | 0, l => l
  | _ + 1, [] => []
  | _ + 1, [c] => [c]
  | fuel + 1, c :: d :: rest =>
    if c = '/' ∧ d = '/' then stripSlashCommentsF fuel (dropLineRest rest)
    else c :: stripSlashCommentsF fuel (d :: rest)

def stripSlashComments (l : List Char) : List Char :=
  stripSlashCommentsF (l.length + 1) l

/-- Scan for the first `*/`; return the remainder after it, if any. -/
def dropToStarSlash : List Char → Option (List Char)
  | [] => none
  | [_] => none
  | c :: d :: rest' =>
    if c = '*' ∧ d = '/' then some rest' else dropToStarSlash (d :: rest')

/-- Stage 3: `re.sub(r'/\*.*?\*/', '', content, flags=re.DOTALL)`. -/
def stripBlockCommentsF : Nat → List Char → List Char
  | 0, l => l
  | _ + 1, [] => []
  | _ + 1, [c] => [c]
  | fuel + 1, c :: d :: rest' =>
    if c = '/' ∧ d = '*' then
      match dropToStarSlash rest' with
      | some rest2 => stripBlockCommentsF fuel rest2
      | none => c :: d :: rest'
    else c :: stripBlockCommentsF fuel (d :: rest')

def stripBlockComments (l : List Char) : List Char :=
  stripBlockCommentsF (l.length + 1) l

/-- Scan for the first run of three `q`s; return the remainder after it. -/
def dropToTriple (q : Char) : List Char → Option (List Char)
  | [] => none
  | [_] => none
  | [_, _] => none
  | a :: b :: c :: rest' =>
    if a = q ∧ b = q ∧ c = q then some rest'
    else dropToTriple q (b :: c :: rest')

/-- Stages 4 and 5: `re.sub(r'""".*?"""', '', content, flags=re.DOTALL)` and
the `'''` variant, with `q` the quote character. -/
def stripTriplesF (q : Char) : Nat → List Char → List Char
  | 0, l => l
  | _ + 1, [] => []
  | _ + 1, [a] => [a]
  | _ + 1, [a, b] => [a, b]
  | fuel + 1, a :: b :: c :: rest' =>
    if a = q ∧ b = q ∧ c = q then
      match dropToTriple q rest' with
      | some rest2 => stripTriplesF q fuel rest2
      | none => a :: b :: c :: rest'
    else a :: stripTriplesF q fuel (b :: c :: rest')

def stripTriples (q : Char) (l : List Char) : List Char :=
  stripTriplesF q (l.length + 1) l

/-- Stage 6: `re.sub(r'\s+', ' ', content)`.  `inRun` records whether the
previous character was part of a whitespace run (whose single replacement
space has already been emitted). -/
def collapseWsGo (inRun : Bool) : List Char → List Char
  | [] => []
  | c :: rest =>
    if pyIsSpace c then
      if inRun then collapseWsGo true rest
      else ' ' :: collapseWsGo true rest
    else c :: collapseWsGo false rest

def collapseWs (l : List Char) : List Char := collapseWsGo false l

/-- The `(import|from)` alternation at the current position: returns the
remainder after the keyword if it matches. -/
def importKw (l : List Char) : Option (List Char) :=
  if l.take 6 = "import".toList then some (l.drop 6)
  else if l.take 4 = "from".toList then some (l.drop 4)
  else none

/-- At a line start, does `^(import|from)\s+.*?$` match?  If so, return the
remainder of the input after the match: the greedy `\s+` eats the maximal
whitespace run after the keyword (newlines included), and `.*?$` then extends
to the end of the line in which that run ends. -/
def importMatchRest (l : List Char) : Option (List Char) :=
  match importKw l with
  | none => none
  | some r =>
    match r with
    | [] => none
    | c :: r2 =>
      if pyIsSpace c then some (dropLineRest (r2.dropWhile pyIsSpace))
      else none

/-- Stage 7: `re.sub(r'^(import|from)\s+.*?$', '', content, flags=re.MULTILINE)`.
`^` matches at the start of the input and after each `\n`; after a match the
scan resumes at the end of the match (which sits on a `\n` or at the end).
Inside a line that did not match at its start, characters are copied verbatim
(`^` cannot match mid-line), and `atStart` becomes true again after a `\n`. -/
def stripImportsGoF : Nat → Bool → List Char → List Char
  | 0, _, l => l
  | _ + 1, _, [] => []
  | fuel + 1, atStart, c :: rest =>
    if atStart then
      match importMatchRest (c :: rest) with
      | some [] => []
      | some (d :: t) => d :: stripImportsGoF fuel true t
      | none => c :: stripImportsGoF fuel (c = '\n') rest
    else c :: stripImportsGoF fuel (c = '\n') rest

def stripImports (l : List Char) : List Char :=
  stripImportsGoF (l.length + 1) true l

/-- `CodeComparisonEngine._normalize_code` (code_comparison.py 131-142):
the seven `re.sub` stages in source order, then `.strip().lower()`. -/
def normalizeL (content : List Char) : List Char :=
  pyLowerL (pyStripL (stripImports (collapseWs (stripTriples '\''
    (stripTriples '"' (stripBlockComments (stripSlashComments
      (stripHashComments content))))))))

/-- `_normalize_code` on `String`s. -/
def normalizeStr (s : String) : String := ⟨normalizeL s.toList⟩

/-! ## Normal forms of `_normalize_code`

`cleanNF l` says `l` contains none of the characters any removal stage can
act on, has its whitespace already collapsed and stripped, is lower-case, and
does not begin with an `import`/`from` clause.  On such strings every stage
of `_normalize_code` is the identity. -/

/-- No two adjacent spaces. -/
def noDoubleSpace : List Char → Bool
  | [] => true
  | [_] => true
  | c :: d :: rest =>
    if c = ' ' ∧ d = ' ' then false else noDoubleSpace (d :: rest)

/-- `l` is a fixed point of every stage of `_normalize_code`: no comment or
string delimiters, whitespace only as single interior spaces, lower-case, and
no leading import/from clause. -/
def cleanNF (l : List Char) : Bool :=
  l.all (fun c => c != '#' && c != '/' && c != '"' && c != '\'' &&
    (!pyIsSpace c || c == ' ') && c.toLower == c)
  && noDoubleSpace l
  && l.head? != some ' '
  && l.getLast? != some ' '
  && (importMatchRest l).isNone

/-! ## `difflib.SequenceMatcher` (as called by `_calculate_similarity`)

`_calculate_similarity` runs `SequenceMatcher(None, norm1, norm2).ratio()`.
The embedding below follows CPython's `difflib.py`:

* `__chain_b` builds `b2j`, mapping each element of `b` to its ascending list
  of indices; with `isjunk=None` the junk set `bjunk` stays empty, and with
  `autojunk=True` and `len(b) >= 200` the *popular* elements (more than
  `len(b)//100 + 1` occurrences) are deleted from `b2j` (they go to
  `bpopular`, not to `bjunk`).
* `find_longest_match` runs the `j2len` dynamic program over `b2j` (the inner
  loop's `continue`/`break` on the ascending index list is a filter to
  `[blo, bhi)`), then the two non-junk extension loops and the two junk
  extension loops (the junk loops never fire since `bjunk` is empty).
* `ratio` sums the sizes of the matching blocks found by
  `get_matching_blocks`' stack recursion and returns `2*M/T`, or `1.0` when
  `T = len(a)+len(b) = 0`.  Sorting and merging of adjacent blocks in
  `get_matching_blocks` do not change the sum of sizes, so `matchTotal`
  computes the recursion of match sizes directly; recursing into an empty
  side (which CPython's `if alo < i and blo < j` guards skip) contributes 0.
-/

/-- Ascending list of indices of `c` in `b` (`b2j` before autojunk). -/
def occList (b : List Char) (c : Char) : List Nat :=
  (List.range b.length).filter (fun i => b.getD i ' ' = c)

/-- `b2j` after `__chain_b`'s autojunk purge (`isjunk=None`, `autojunk=True`). -/
def b2jF (b : List Char) (c : Char) : List Nat :=
  let l := occList b c
  if b.length ≥ 200 ∧ l.length > b.length / 100 + 1 then [] else l

/-- A `find_longest_match` candidate: `besti`, `bestj`, `bestsize`. -/
structure FMatch where
  bi : Nat
  bj : Nat
  sz : Nat
  deriving DecidableEq

/-- Inner loop of the `j2len` dynamic program at row `i`: fold over the
(filtered, ascending) occurrence list of `a[i]`, building `newj2len` and
updating the running best.  `k = j2len.get(j-1, 0) + 1`; an update fires on
`k > bestsize` and records `(i-k+1, j-k+1, k)` (in every reachable state
`k ≤ i+1` and `k ≤ j+1`, so the truncated subtractions are exact). -/
def dpInner (jlenPrev : Nat → Nat) (i : Nat) :
    List Nat → (Nat → Nat) → FMatch → ((Nat → Nat) × FMatch)
  | [], newj, best => (newj, best)
  | j :: js, newj, best =>
    let k := (if j = 0 then 0 else jlenPrev (j - 1)) + 1
    let newj2 : Nat → Nat := fun x => if x = j then k else newj x
    let best2 : FMatch := if best.sz < k then ⟨i + 1 - k, j + 1 - k, k⟩ else best
    dpInner jlenPrev i js newj2 best2

/-- Outer loop of the dynamic program: scan `i` upward for `steps` rows
(called with `i = alo`, `steps = ahi - alo`); `j2len` is re-created empty for
each row. -/
def dpScan (a b : List Char) (blo bhi : Nat) :
    Nat → Nat → (Nat → Nat) → FMatch → FMatch
  | _, 0, _, best => best
  | i, steps + 1, jlen, best =>
    dpScan a b blo bhi (i + 1) steps
      (dpInner jlen i ((b2jF b (a.getD i ' ')).filter
        (fun j => blo ≤ j && j < bhi)) (fun _ => 0) best).1
      (dpInner jlen i ((b2jF b (a.getD i ' ')).filter
        (fun j => blo ≤ j && j < bhi)) (fun _ => 0) best).2

/-- First extension loop: extend the best block over equal non-junk elements
before it.  `fuel` only bounds iteration (each step decrements `bi`). -/
def extFrontNJ (a b : List Char) (alo blo : Nat) (bjunk : Char → Bool) :
    Nat → FMatch → FMatch
  | 0, best => best
  | fuel + 1, best =>
    if alo < best.bi ∧ blo < best.bj ∧
        bjunk (b.getD (best.bj - 1) ' ') = false ∧
        a.getD (best.bi - 1) ' ' = b.getD (best.bj - 1) ' ' then
      extFrontNJ a b alo blo bjunk fuel ⟨best.bi - 1, best.bj - 1, best.sz + 1⟩
    else best

/-- Second extension loop: extend over equal non-junk elements after the
block (each step increments `sz`, bounded by `ahi`). -/
def extBackNJ (a b : List Char) (ahi bhi : Nat) (bjunk : Char → Bool) :
    Nat → FMatch → FMatch
  | 0, best => best
  | fuel + 1, best =>
    if best.bi + best.sz < ahi ∧ best.bj + best.sz < bhi ∧
        bjunk (b.getD (best.bj + best.sz) ' ') = false ∧
        a.getD (best.bi + best.sz) ' ' = b.getD (best.bj + best.sz) ' ' then
      extBackNJ a b ahi bhi bjunk fuel ⟨best.bi, best.bj, best.sz + 1⟩
    else best

/-- Third extension loop (junk variant of the first). -/
def extFrontJ (a b : List Char) (alo blo : Nat) (bjunk : Char → Bool) :
    Nat → FMatch → FMatch
  | 0, best => best
  | fuel + 1, best =>
    if alo < best.bi ∧ blo < best.bj ∧
        bjunk (b.getD (best.bj - 1) ' ') = true ∧
        a.getD (best.bi - 1) ' ' = b.getD (best.bj - 1) ' ' then
      extFrontJ a b alo blo bjunk fuel ⟨best.bi - 1, best.bj - 1, best.sz + 1⟩
    else best

/-- Fourth extension loop (junk variant of the second). -/
def extBackJ (a b : List Char) (ahi bhi : Nat) (bjunk : Char → Bool) :
    Nat → FMatch → FMatch
  | 0, best => best
  | fuel + 1, best =>
    if best.bi + best.sz < ahi ∧ best.bj + best.sz < bhi ∧
        bjunk (b.getD (best.bj + best.sz) ' ') = true ∧
        a.getD (best.bi + best.sz) ' ' = b.getD (best.bj + best.sz) ' ' then
      extBackJ a b ahi bhi bjunk fuel ⟨best.bi, best.bj, best.sz + 1⟩
    else best

/-- `SequenceMatcher.find_longest_match(alo, ahi, blo, bhi)` with
`isjunk=None` (so `bjunk` is the constant-false predicate). -/
def findLongestMatch (a b : List Char) (alo ahi blo bhi : Nat) : FMatch :=
  let bjunk : Char → Bool := fun _ => false
  let best0 := dpScan a b blo bhi alo (ahi - alo) (fun _ => 0) ⟨alo, blo, 0⟩
  let best1 := extFrontNJ a b alo blo bjunk best0.bi best0
  let best2 := extBackNJ a b ahi bhi bjunk ahi best1
  let best3 := extFrontJ a b alo blo bjunk best2.bi best2
  extBackJ a b ahi bhi bjunk ahi best3

/-- Range soundness of a `find_longest_match` state: the block sits inside
`[alo, ahi) × [blo, bhi)`, or is the still-empty initial state. -/
def FMOk (alo ahi blo bhi : Nat) (m : FMatch) : Prop :=
  alo ≤ m.bi ∧ blo ≤ m.bj ∧
    (m.bi + m.sz ≤ ahi ∧ m.bj + m.sz ≤ bhi ∨
      (m.sz = 0 ∧ m.bi = alo ∧ m.bj = blo))

/-- Sum of sizes of the matching blocks of `get_matching_blocks`' stack
recursion (sorting and adjacent-block merging preserve the sum; recursing
into a side CPython's guards would skip yields 0).  The `fuel` argument only
bounds recursion depth: by `findLongestMatch_ok` each recursive call strictly
decreases `(ahi - alo) + (bhi - blo)` (see `matchTotalF_fuel`), so the
wrapper's `measure + 1` fuel never runs out. -/
def matchTotalF (a b : List Char) : Nat → Nat → Nat → Nat → Nat → Nat
  | 0, _, _, _, _ => 0
  | fuel + 1, alo, ahi, blo, bhi =>
    if (findLongestMatch a b alo ahi blo bhi).sz = 0 then 0
    else matchTotalF a b fuel alo (findLongestMatch a b alo ahi blo bhi).bi blo
           (findLongestMatch a b alo ahi blo bhi).bj +
         (findLongestMatch a b alo ahi blo bhi).sz +
         matchTotalF a b fuel
           ((findLongestMatch a b alo ahi blo bhi).bi +
             (findLongestMatch a b alo ahi blo bhi).sz) ahi
           ((findLongestMatch a b alo ahi blo bhi).bj +
             (findLongestMatch a b alo ahi blo bhi).sz) bhi

def matchTotal (a b : List Char) (alo ahi blo bhi : Nat) : Nat :=
  matchTotalF a b ((ahi - alo) + (bhi - blo) + 1) alo ahi blo bhi

/-- `SequenceMatcher.ratio()`: `2*M/T`, or `1.0` when both sequences are
empty (`difflib._calculate_ratio`). -/
def ratioQ (a b : List Char) : ℚ :=
  if a.length + b.length = 0 then 1
  else (2 * (matchTotal a b 0 a.length 0 b.length) : ℚ) /
    ((a.length + b.length : Nat) : ℚ)

/-- `CodeComparisonEngine._calculate_similarity` (code_comparison.py
123-129): normalize both inputs, then `SequenceMatcher(None, ·, ·).ratio()`. -/
def calculateSimilarity (content1 content2 : List Char) : ℚ :=
  ratioQ (normalizeL content1) (normalizeL content2)

/-! ### Self-comparison: `ratio(s, s) = 1`

For `a = b = l` the dynamic program's best block always lies on the
diagonal: chains are bounded by the visible-run lengths on both sides, the
diagonal chain attains that bound, and (scanning `i` upward, `j` ascending)
a diagonal completion is always processed before any off-diagonal tie.  The
non-junk extension loops then grow the diagonal block to the whole string. -/

/-- Is position `i`'s element visible to the DP (not purged by autojunk)? -/
def visAt (l : List Char) (i : Nat) : Bool :=
  !(b2jF l (l.getD i ' ')).isEmpty

/-- Length of the visible run ending at position `i`. -/
def runLen (l : List Char) : Nat → Nat
  | 0 => if visAt l 0 then 1 else 0
  | i + 1 => if visAt l (i + 1) then runLen l i + 1 else 0

/-- Visible run length just before position `i`. -/
def pRun (l : List Char) : Nat → Nat
  | 0 => 0
  | i + 1 => runLen l i

/-- Largest visible-run length ending strictly below `i`. -/
def maxRun (l : List Char) : Nat → Nat
  | 0 => 0
  | i + 1 => max (maxRun l i) (runLen l i)

/-! ## Data model (src/core/models.py) -/

/-- `ViolationType` enumeration. -/
inductive ViolationType where
  | commits_outside_window
  | unauthorized_contributors
  | large_initial_commit
  | excessive_contributors
  | suspicious_timing
  | code_reuse
  deriving DecidableEq

/-- The `str` value of each enum member. -/
def ViolationType.value : ViolationType → String
  | .commits_outside_window => "commits_outside_window"
  | .unauthorized_contributors => "unauthorized_contributors"
  | .large_initial_commit => "large_initial_commit"
  | .excessive_contributors => "excessive_contributors"
  | .suspicious_timing => "suspicious_timing"
  | .code_reuse => "code_reuse"

structure TeamMember where
  name : String
  github_username : String
  email : Option String
  deriving DecidableEq

structure Team where
  team_id : String
  team_name : String
  members : List TeamMember
  devpost_url : Option String
  repository_url : String
  deriving DecidableEq

/-- `Team` construction: the `validate_team_size` field validator raises a
`ValueError` when more than 4 members are supplied. -/
def mkTeam (team_id team_name : String) (members : List TeamMember)
    (devpost_url : Option String) (repository_url : String) : Except String Team :=
  if members.length > 4 then .error "Team size exceeds maximum allowed (4)"
  else .ok ⟨team_id, team_name, members, devpost_url, repository_url⟩

structure HackathonConfig where
  name : String
  start_time : Int
  end_time : Int
  max_team_size : Int
  grace_period_hours : Int
  large_commit_threshold : Int
  deriving DecidableEq

structure CommitInfo where
  sha : String
  author : String
  author_email : String
  timestamp : Int
  message : String
  additions : Int
  deletions : Int
  total_changes : Int
  files_changed : Int
  deriving DecidableEq

structure RepositoryInfo where
  url : String
  name : String
  owner : String
  created_at : Int
  commits : List CommitInfo
  contributors : List String
  deriving DecidableEq

/-- A value of a `Dict[str, Any]` evidence payload. -/
inductive EvVal where
  | i (v : Int)
  | n (v : Nat)
  | s (v : String)
  | list (l : List EvVal)
  | obj (l : List (String × EvVal))

structure Violation where
  type : ViolationType
  severity : String
  description : String
  evidence : List (String × EvVal)

/-- Look up a key in an evidence payload. -/
def evLookup (key : String) : List (String × EvVal) → Option EvVal
  | [] => none
  | (k, v) :: rest => if k = key then some v else evLookup key rest

/-- The `Nat` stored at `key`, if any. -/
def evNat (ev : List (String × EvVal)) (key : String) : Option Nat :=
  match evLookup key ev with
  | some (.n v) => some v
  | _ => none

/-- The `Int` stored at `key`, if any. -/
def evInt (ev : List (String × EvVal)) (key : String) : Option Int :=
  match evLookup key ev with
  | some (.i v) => some v
  | _ => none

/-- The length of the list stored at `key`, if any. -/
def evListLen (ev : List (String × EvVal)) (key : String) : Option Nat :=
  match evLookup key ev with
  | some (.list l) => some l.length
  | _ => none

structure TeamAnalysisResult where
  team : Team
  repository_info : RepositoryInfo
  violations : List Violation
  is_flagged : Bool
  summary : String
  analysis_timestamp : Int

/-- `TeamAnalysisResult` construction.  The pydantic `determine_flagged_status`
field validator recomputes `is_flagged` as `len([v for v in violations if
v.severity == "high"]) > 0`, discarding the supplied value (`violations` is
validated before `is_flagged`, so it is always present in `info.data` for a
well-typed violations list). -/
def mkTeamAnalysisResult (team : Team) (repository_info : RepositoryInfo)
    (violations : List Violation) (_is_flagged_supplied : Bool)
    (summary : String) (analysis_timestamp : Int) : TeamAnalysisResult :=
  { team := team, repository_info := repository_info, violations := violations,
    is_flagged := (violations.filter (fun v => v.severity = "high")).length > 0,
    summary := summary, analysis_timestamp := analysis_timestamp }

/-! ## The rule checks (`CommitAnalyzer`, src/core/analyzer.py) -/

structure AnalysisConfig where
  large_commit_threshold : Int
  suspicious_file_count : Int
  max_commits_per_minute : Nat
  similarity_high_threshold : ℚ
  similarity_medium_threshold : ℚ
  deriving DecidableEq

/-- `str.lower` on `String`. -/
def pyLowerStr (s : String) : String := ⟨pyLowerL s.toList⟩

/-- `end_time + timedelta(hours=grace_period_hours)` in epoch seconds. -/
def graceEnd (cfg : HackathonConfig) : Int :=
  cfg.end_time + cfg.grace_period_hours * 3600

/-- The `if commit.timestamp < start_time` branch of the partition loop. -/
def earlyCommits (cfg : HackathonConfig) (repo : RepositoryInfo) : List CommitInfo :=
  repo.commits.filter (fun c => c.timestamp < cfg.start_time)

/-- The `elif commit.timestamp > grace_end` branch of the partition loop. -/
def lateCommits (cfg : HackathonConfig) (repo : RepositoryInfo) : List CommitInfo :=
  repo.commits.filter (fun c =>
    !(c.timestamp < cfg.start_time) && c.timestamp > graceEnd cfg)

/-- One example-commit record of a timing evidence payload
(`sha[:8]`, timestamp, `total_changes`, `message[:100]`). -/
def commitExample (c : CommitInfo) : EvVal :=
  .obj [("sha", .s (c.sha.take 8)), ("timestamp", .i c.timestamp),
        ("changes", .i c.total_changes), ("message", .s (c.message.take 100))]

/-- `_check_commit_timing` (analyzer.py 62-124).  Note: the early-commit
evidence lists one example per early commit (no `[:5]` cap), while the late
branch is capped at `late_commits[:5]`. -/
def checkCommitTiming (cfg : HackathonConfig) (repo : RepositoryInfo) : List Violation :=
  (if (earlyCommits cfg repo).isEmpty then [] else
    [{ type := .commits_outside_window,
       severity :=
         if (earlyCommits cfg repo).length > 5 ∨
             (earlyCommits cfg repo).any (fun c => c.total_changes > 100)
         then "high" else "medium",
       description := "Found " ++ toString (earlyCommits cfg repo).length ++
         " commits before hackathon start",
       evidence :=
         [("early_commits", .n (earlyCommits cfg repo).length),
          ("total_changes_before",
            .i (((earlyCommits cfg repo).map (fun c => c.total_changes)).sum)),
          ("commits", .list ((earlyCommits cfg repo).map commitExample))] }]) ++
  (if (lateCommits cfg repo).isEmpty then [] else
    [{ type := .commits_outside_window,
       severity :=
         if ((lateCommits cfg repo).filter (fun c => c.total_changes > 50)).isEmpty
         then "low" else "high",
       description := "Found " ++ toString (lateCommits cfg repo).length ++
         " commits after deadline (" ++
         toString ((lateCommits cfg repo).filter (fun c => c.total_changes > 50)).length ++
         " major)",
       evidence :=
         [("late_commits", .n (lateCommits cfg repo).length),
          ("major_late_commits",
            .n ((lateCommits cfg repo).filter (fun c => c.total_changes > 50)).length),
          ("commits", .list (((lateCommits cfg repo).take 5).map commitExample))] }])

/-- Python `set` membership modelled on lists: first-occurrence dedup. -/
def insertOrderDedup {α : Type} [DecidableEq α] (l : List α) : List α :=
  l.foldl (fun acc x => if x ∈ acc then acc else acc ++ [x]) []

/-- `{member.github_username.lower() for member in team.members}`. -/
def teamMemberHandles (team : Team) : List String :=
  insertOrderDedup (team.members.map (fun m => pyLowerStr m.github_username))

/-- `repo_contributors - team_members` (both lower-cased sets). -/
def unauthorizedContributors (team : Team) (repo : RepositoryInfo) : List String :=
  (insertOrderDedup (repo.contributors.map pyLowerStr)).filter
    (fun u => !(teamMemberHandles team).contains u)

/-- Commits whose lower-cased author name or email contains any unauthorized
handle as a substring. -/
def unauthorizedCommits (team : Team) (repo : RepositoryInfo) : List CommitInfo :=
  repo.commits.filter (fun c => (unauthorizedContributors team repo).any
    (fun u => pyContains (pyLowerStr c.author) u ||
              pyContains (pyLowerStr c.author_email) u))

/-- `_check_unauthorized_contributors` (analyzer.py 126-158). -/
def checkUnauthorizedContributors (team : Team) (repo : RepositoryInfo) :
    List Violation :=
  if (unauthorizedContributors team repo).isEmpty then [] else
    [{ type := .unauthorized_contributors,
       severity :=
         if ((unauthorizedCommits team repo).map (fun c => c.total_changes)).sum > 100
         then "high" else "medium",
       description := "Found " ++ toString (unauthorizedContributors team repo).length ++
         " unauthorized contributors",
       evidence :=
         [("unauthorized_contributors",
            .list ((unauthorizedContributors team repo).map .s)),
          ("team_members", .list (team.members.map (fun m => .s m.github_username))),
          ("unauthorized_commits", .n (unauthorizedCommits team repo).length),
          ("unauthorized_changes",
            .i ((unauthorizedCommits team repo).map (fun c => c.total_changes)).sum)] }]

/-- Stable insertion of a commit into a timestamp-sorted list (a new commit
goes after every commit with timestamp ≤ its own). -/
def insertByTs (c : CommitInfo) : List CommitInfo → List CommitInfo
  | [] => [c]
  | d :: rest =>
    if d.timestamp ≤ c.timestamp then d :: insertByTs c rest else c :: d :: rest

/-- `sorted(repo_info.commits, key=lambda x: x.timestamp)` (Python's sort is
stable; stable insertion sort is extensionally the same). -/
def sortedCommits (repo : RepositoryInfo) : List CommitInfo :=
  repo.commits.foldl (fun acc c => insertByTs c acc) []

/-- The `total_changes > large_commit_threshold or files_changed >
suspicious_file_count` condition. -/
def offendsLarge (acfg : AnalysisConfig) (c : CommitInfo) : Bool :=
  c.total_changes > acfg.large_commit_threshold ||
  c.files_changed > acfg.suspicious_file_count

/-- The violation record built for offending commit `c` at chronological
index `i`. -/
def largeViolation (acfg : AnalysisConfig) (i : Nat) (c : CommitInfo) : Violation :=
  { type := .large_initial_commit,
    severity := if i = 0 then "high" else "medium",
    description := "Large initial commit #" ++ toString (i + 1) ++ ": " ++
      toString c.total_changes ++ " changes, " ++ toString c.files_changed ++ " files",
    evidence :=
      [("commit_sha", .s c.sha), ("commit_index", .n i),
       ("timestamp", .i c.timestamp), ("total_changes", .i c.total_changes),
       ("additions", .i c.additions), ("deletions", .i c.deletions),
       ("files_changed", .i c.files_changed), ("message", .s c.message),
       ("threshold", .i acfg.large_commit_threshold)] }

/-- The `for i, commit in enumerate(sorted_commits)` loop. -/
def largeLoop (acfg : AnalysisConfig) : Nat → List CommitInfo → List Violation
  | _, [] => []
  | i, c :: rest =>
    (if offendsLarge acfg c then [largeViolation acfg i c] else []) ++
    largeLoop acfg (i + 1) rest

/-- `_check_large_initial_commits` (analyzer.py 160-193). -/
def checkLargeInitialCommits (acfg : AnalysisConfig) (repo : RepositoryInfo) :
    List Violation :=
  if repo.commits.isEmpty then [] else largeLoop acfg 0 (sortedCommits repo)

/-- `_check_excessive_contributors` (analyzer.py 195-215). -/
def checkExcessiveContributors (cfg : HackathonConfig) (team : Team)
    (repo : RepositoryInfo) : List Violation :=
  if (repo.contributors.length : Int) > cfg.max_team_size then
    [{ type := .excessive_contributors,
       severity := "high",
       description := "Repository has " ++ toString repo.contributors.length ++
         " contributors, max allowed is " ++ toString cfg.max_team_size,
       evidence :=
         [("actual_contributors", .n repo.contributors.length),
          ("max_allowed", .i cfg.max_team_size),
          ("contributors", .list (repo.contributors.map .s)),
          ("team_size", .n team.members.length)] }]
  else []

/-- `timestamp.replace(second=0, microsecond=0)`: truncate to the minute. -/
def minuteWindow (ts : Int) : Int := ts.fdiv 60 * 60

/-- The distinct minute windows in first-appearance (dict-insertion) order. -/
def rapidWindows (repo : RepositoryInfo) : List Int :=
  insertOrderDedup (repo.commits.map (fun c => minuteWindow c.timestamp))

def windowCommits (repo : RepositoryInfo) (w : Int) : List CommitInfo :=
  repo.commits.filter (fun c => minuteWindow c.timestamp = w)

/-- `_check_rapid_commits` (analyzer.py 248-275). -/
def checkRapidCommits (acfg : AnalysisConfig) (repo : RepositoryInfo) :
    List Violation :=
  (rapidWindows repo).filterMap (fun w =>
    if (windowCommits repo w).length > acfg.max_commits_per_minute then
      some { type := .suspicious_timing,
             severity := "medium",
             description := "Rapid commits: " ++ toString (windowCommits repo w).length ++
               " commits in 1 minute at " ++ toString w,
             evidence :=
               [("timestamp", .i w),
                ("commit_count", .n (windowCommits repo w).length),
                ("total_changes",
                  .i ((windowCommits repo w).map (fun c => c.total_changes)).sum),
                ("threshold", .n acfg.max_commits_per_minute)] }
    else none)

/-- `Counter(commit.timestamp ...)` groups with more than one member, in
first-appearance order. -/
def identicalGroups (repo : RepositoryInfo) : List (Int × Nat) :=
  ((insertOrderDedup (repo.commits.map (fun c => c.timestamp))).map
    (fun t => (t, (repo.commits.filter (fun c => c.timestamp = t)).length))).filter
    (fun p => p.2 > 1)

/-- `_check_identical_timestamps` (analyzer.py 277-302). -/
def checkIdenticalTimestamps (repo : RepositoryInfo) : List Violation :=
  if (identicalGroups repo).isEmpty then [] else
    [{ type := .suspicious_timing,
       severity := "low",
       description := "Found " ++ toString (identicalGroups repo).length ++
         " groups of commits with identical timestamps (" ++
         toString (((identicalGroups repo).map (fun p => p.2)).sum) ++ " total commits)",
       evidence :=
         [("identical_groups", .n (identicalGroups repo).length),
          ("total_identical_commits", .n ((identicalGroups repo).map (fun p => p.2)).sum),
          ("examples", .list (((identicalGroups repo).take 3).map
            (fun p => .obj [("timestamp", .i p.1), ("count", .n p.2)])))] }]

/-- `_check_suspicious_patterns` (analyzer.py 236-246). -/
def checkSuspiciousPatterns (acfg : AnalysisConfig) (repo : RepositoryInfo) :
    List Violation :=
  if repo.commits.isEmpty then []
  else checkRapidCommits acfg repo ++ checkIdenticalTimestamps repo

/-! ## `CodeComparisonEngine` (src/core/code_comparison.py) -/

/-- A `{path, content}` source-file record from the fetch collaborator. -/
structure CodeFile where
  path : String
  content : String
  deriving DecidableEq

structure CodeComparisonEngine where
  reference_file_path : String
  high_threshold : ℚ
  medium_threshold : ℚ
  reference_content : String
  deriving DecidableEq

/-- `_calculate_file_hash`: the SHA-256 digest of the normalized content,
modelled as the normalized content itself — the digest is only ever compared
for equality, and distinct texts are modelled as having distinct digests. -/
def calculateFileHash (content : String) : String := normalizeStr content

/-- `content.split('\n')`. -/
def splitOnNl : List Char → List (List Char)
  | [] => [[]]
  | c :: rest =>
    if c = '\n' then [] :: splitOnNl rest
    else
      match splitOnNl rest with
      | [] => [[c]]
      | line :: more => (c :: line) :: more

/-- `line.strip().startswith(('def ', 'class ', 'async def '))`. -/
def isDefLine (stripped : List Char) : Bool :=
  listHasPrefix "def ".toList stripped ||
  listHasPrefix "class ".toList stripped ||
  listHasPrefix "async def ".toList stripped

/-- `len(line) - len(line.lstrip())`. -/
def lineIndent (line : List Char) : Nat :=
  line.length - (line.dropWhile pyIsSpace).length

/-- `'\n'.join(lines)`. -/
def joinNl (lines : List (List Char)) : List Char :=
  match lines with
  | [] => []
  | [x] => x
  | x :: xs => x ++ '\n' :: joinNl xs

/-- The line scanner of `_extract_code_blocks` (code_comparison.py 164-193),
carrying `current_block`, `in_function` and `indent_level`. -/
def extractBlocksGo (current : List (List Char)) (inF : Bool) (indentLevel : Nat) :
    List (List Char) → List (List Char)
  | [] => if !current.isEmpty && inF then [joinNl current] else []
  | line :: rest =>
    if isDefLine (pyStripL line) then
      (if !current.isEmpty && inF then [joinNl current] else []) ++
      extractBlocksGo [line] true (lineIndent line) rest
    else if inF then
      if lineIndent line > indentLevel || (pyStripL line).isEmpty then
        extractBlocksGo (current ++ [line]) inF indentLevel rest
      else
        joinNl current :: extractBlocksGo [] false indentLevel rest
    else extractBlocksGo current inF indentLevel rest

/-- `_extract_code_blocks`: blocks whose stripped text has more than 50
characters. -/
def extractCodeBlocks (content : String) : List (List Char) :=
  (extractBlocksGo [] false 0 (splitOnNl content.toList)).filter
    (fun b => (pyStripL b).length > 50)

/-- `_find_matching_code_blocks` (code_comparison.py 149-162): the inner
`break` makes this the number of candidate blocks with at least one reference
block of similarity above 0.7 (the float literal 0.7 is modelled as 7/10). -/
def findMatchingCodeBlocks (content reference : String) : Nat :=
  ((extractCodeBlocks content).filter (fun b =>
    (extractCodeBlocks reference).any (fun rb =>
      calculateSimilarity b rb > (7 / 10 : ℚ)))).length

/-- `_compare_against_reference` (code_comparison.py 56-121).  The
`{similarity:.1%}` formatting in descriptions is elided. -/
def compareAgainstReference (eng : CodeComparisonEngine) (file : CodeFile) :
    List Violation :=
  (if calculateSimilarity file.content.toList eng.reference_content.toList >
      eng.high_threshold then
    [{ type := .code_reuse, severity := "high",
       description := "High similarity to reference code in " ++ file.path,
       evidence :=
         [("file_path", .s file.path),
          ("reference_file", .s eng.reference_file_path),
          ("match_type", .s "high_similarity"),
          ("file_size", .n file.content.length),
          ("reference_size", .n eng.reference_content.length)] }]
  else if calculateSimilarity file.content.toList eng.reference_content.toList >
      eng.medium_threshold then
    [{ type := .code_reuse, severity := "medium",
       description := "Moderate similarity to reference code in " ++ file.path,
       evidence :=
         [("file_path", .s file.path),
          ("reference_file", .s eng.reference_file_path),
          ("match_type", .s "moderate_similarity"),
          ("file_size", .n file.content.length),
          ("reference_size", .n eng.reference_content.length)] }]
  else []) ++
  (if calculateFileHash file.content = calculateFileHash eng.reference_content then
    [{ type := .code_reuse, severity := "high",
       description := "Exact copy of reference code detected in " ++ file.path,
       evidence :=
         [("file_path", .s file.path),
          ("match_type", .s "exact_copy"),
          ("file_hash", .s (calculateFileHash file.content)),
          ("reference_file", .s eng.reference_file_path)] }]
  else []) ++
  (if findMatchingCodeBlocks file.content eng.reference_content > 2 then
    [{ type := .code_reuse, severity := "medium",
       description := "Multiple code blocks match reference in " ++ file.path,
       evidence :=
         [("file_path", .s file.path),
          ("matching_blocks", .n (findMatchingCodeBlocks file.content eng.reference_content)),
          ("reference_file", .s eng.reference_file_path),
          ("match_type", .s "code_blocks")] }]
  else [])

/-- `analyze_code_files` (code_comparison.py 41-54): nothing is reported when
there are no files or the reference failed to load (empty string). -/
def analyzeCodeFiles (eng : CodeComparisonEngine) (repo_files : List CodeFile)
    (_team_name : String) : List Violation :=
  if repo_files.isEmpty || eng.reference_content = "" then []
  else (repo_files.map (compareAgainstReference eng)).flatten

/-! ## `CommitAnalyzer.analyze_team` and the driver (analyzer.py, main.py) -/

/-- `_check_code_reuse` (analyzer.py 217-234), with the file fetch
(`github_client.get_code_files`) supplied as a fallible collaborator; its
`try/except` turns any failure into "no evidence". -/
def checkCodeReuse (eng : CodeComparisonEngine)
    (getFiles : String → Except String (List CodeFile))
    (team : Team) (repo : RepositoryInfo) : List Violation :=
  match getFiles repo.url with
  | .error _ => []
  | .ok files => if files.isEmpty then [] else analyzeCodeFiles eng files team.team_name

/-- `_generate_summary` (analyzer.py 304-324); emoji markers elided. -/
def generateSummary (team : Team) (violations : List Violation) : String :=
  if violations.isEmpty then
    "Team '" ++ team.team_name ++ "' passed all checks - no violations detected."
  else
    String.intercalate "\n"
      (("Team '" ++ team.team_name ++ "' flagged with " ++
          toString violations.length ++ " violation(s):") ::
        ((if (violations.filter (fun v => v.severity = "high")).isEmpty then [] else
          ["  HIGH (" ++ toString (violations.filter (fun v => v.severity = "high")).length ++
           "): " ++ String.intercalate ", "
             ((violations.filter (fun v => v.severity = "high")).map
               (fun v => v.type.value))]) ++
        (if (violations.filter (fun v => v.severity = "medium")).isEmpty then [] else
          ["  MEDIUM (" ++ toString (violations.filter (fun v => v.severity = "medium")).length ++
           "): " ++ String.intercalate ", "
             ((violations.filter (fun v => v.severity = "medium")).map
               (fun v => v.type.value))]) ++
        (if (violations.filter (fun v => v.severity = "low")).isEmpty then [] else
          ["  LOW (" ++ toString (violations.filter (fun v => v.severity = "low")).length ++
           "): " ++ String.intercalate ", "
             ((violations.filter (fun v => v.severity = "low")).map
               (fun v => v.type.value))])))

/-- The violation list accumulated by `analyze_team` (analyzer.py 40-49):
the five rule checks in source order, then the optional code-reuse check
(run only when both a github client and a comparison engine exist). -/
def analyzeTeamViolations (cfg : HackathonConfig) (acfg : AnalysisConfig)
    (engine : Option CodeComparisonEngine)
    (getFiles : Option (String → Except String (List CodeFile)))
    (team : Team) (repo : RepositoryInfo) : List Violation :=
  checkCommitTiming cfg repo ++
  checkUnauthorizedContributors team repo ++
  checkLargeInitialCommits acfg repo ++
  checkExcessiveContributors cfg team repo ++
  checkSuspiciousPatterns acfg repo ++
  (match getFiles, engine with
   | some gf, some eng => checkCodeReuse eng gf team repo
   | _, _ => [])

/-- `CommitAnalyzer.analyze_team` (analyzer.py 36-60). -/
def analyzeTeam (cfg : HackathonConfig) (acfg : AnalysisConfig)
    (engine : Option CodeComparisonEngine)
    (getFiles : Option (String → Except String (List CodeFile)))
    (team : Team) (repo : RepositoryInfo) (now : Int) : TeamAnalysisResult :=
  mkTeamAnalysisResult team repo (analyzeTeamViolations cfg acfg engine getFiles team repo)
    ((analyzeTeamViolations cfg acfg engine getFiles team repo).any
      (fun v => v.severity == "high"))
    (generateSummary team (analyzeTeamViolations cfg acfg engine getFiles team repo)) now

/-- `analyze_team` with the exception flow made explicit: the five rule
checks run in sequence with no surrounding handler (an exception from any of
them propagates out, modelled by `Except` bind), while `_check_code_reuse`
wraps its fetch and comparison in `try/except` and degrades any failure to
"no evidence from this check". -/
def analyzeTeamExc
    (chkTiming : RepositoryInfo → Except String (List Violation))
    (chkUnauthorized : Team → RepositoryInfo → Except String (List Violation))
    (chkLarge : RepositoryInfo → Except String (List Violation))
    (chkExcessive : Team → RepositoryInfo → Except String (List Violation))
    (chkSuspicious : RepositoryInfo → Except String (List Violation))
    (codeReuse : Option ((String → Except String (List CodeFile)) ×
      (List CodeFile → String → Except String (List Violation))))
    (team : Team) (repo : RepositoryInfo) (now : Int) :
    Except String TeamAnalysisResult := do
  let v1 ← chkTiming repo
  let v2 ← chkUnauthorized team repo
  let v3 ← chkLarge repo
  let v4 ← chkExcessive team repo
  let v5 ← chkSuspicious repo
  let v6 :=
    match codeReuse with
    | none => []
    | some (getFiles, analyze) =>
      match (do
          let files ← getFiles repo.url
          if files.isEmpty then pure []
          else analyze files team.team_name : Except String (List Violation)) with
      | .ok vs => vs
      | .error _ => []
  let violations := v1 ++ v2 ++ v3 ++ v4 ++ v5 ++ v6
  pure (mkTeamAnalysisResult team repo violations
    (violations.any (fun v => v.severity == "high"))
    (generateSummary team violations) now)

/-! ## The per-team driver loop (`HackathonAnalysisSystem`, main.py) -/

/-- Team data as loaded from the CSV (name, github_username, email per
member). -/
structure TeamData where
  team_name : String
  team_id : String
  repository_url : String
  members : List (String × String × String)
  devpost_url : Option String
  deriving DecidableEq

/-- `CSVTeamLoader.convert_to_team_model` (team_loader.py 80-97): builds the
members and the pydantic `Team`, whose size validator can raise. -/
def convertToTeamModel (td : TeamData) : Except String Team :=
  mkTeam td.team_id td.team_name
    (td.members.map (fun m => ⟨m.1, m.2.1, some m.2.2⟩))
    td.devpost_url td.repository_url

/-- `HackathonAnalysisSystem._analyze_team` (main.py 126-136): convert the
CSV record, fetch the repository, run the analyzer; any raise propagates. -/
def analyzeOneTeam (fetch : String → Except String RepositoryInfo)
    (cfg : HackathonConfig) (acfg : AnalysisConfig)
    (engine : Option CodeComparisonEngine)
    (getFiles : Option (String → Except String (List CodeFile)))
    (now : Int) (td : TeamData) : Except String TeamAnalysisResult := do
  let team ← convertToTeamModel td
  let repo ← fetch td.repository_url
  pure (analyzeTeam cfg acfg engine getFiles team repo now)

/-- `HackathonAnalysisSystem._create_error_result` (main.py 138-160): note
that it re-invokes the fallible `convert_to_team_model`. -/
def createErrorResult (td : TeamData) (errMsg : String) (now : Int) :
    Except String TeamAnalysisResult := do
  let team ← convertToTeamModel td
  pure (mkTeamAnalysisResult team
    { url := td.repository_url, name := "ERROR", owner := "ERROR",
      created_at := now, commits := [], contributors := [] }
    [] false ("Analysis failed: " ++ errMsg) now)

/-- The team loop of `analyze_all_teams` (main.py 76-116): each team's
analysis is wrapped in `try/except`, but the handler's own
`_create_error_result` call is not — an exception it raises propagates and
aborts the whole run. -/
def analyzeAllTeams (fetch : String → Except String RepositoryInfo)
    (cfg : HackathonConfig) (acfg : AnalysisConfig)
    (engine : Option CodeComparisonEngine)
    (getFiles : Option (String → Except String (List CodeFile)))
    (now : Int) : List TeamData → Except String (List TeamAnalysisResult)
  | [] => .ok []
  | td :: rest =>
    match analyzeOneTeam fetch cfg acfg engine getFiles now td with
    | .ok r =>
      match analyzeAllTeams fetch cfg acfg engine getFiles now rest with
      | .ok rs => .ok (r :: rs)
      | .error e => .error e
    | .error e =>
      match createErrorResult td e now with
      | .ok r =>
        match analyzeAllTeams fetch cfg acfg engine getFiles now rest with
        | .ok rs => .ok (r :: rs)
        | .error e2 => .error e2
      | .error e2 => .error e2

/-! ## Sample data for concrete witnesses -/

/-- A configuration mirroring `config/hackathon_config.py` with small
timestamps (window `[1000, 2000]`, grace 2 h ⇒ grace end `9200`). -/
def sampleCfg : HackathonConfig :=
  { name := "HackUMBC 2026", start_time := 1000, end_time := 2000,
    max_team_size := 4, grace_period_hours := 2, large_commit_threshold := 1000 }

/-- The `AnalysisConfig` defaults from `src/core/config.py`. -/
def sampleACfg : AnalysisConfig :=
  { large_commit_threshold := 500, suspicious_file_count := 5,
    max_commits_per_minute := 3,
    similarity_high_threshold := 4 / 5, similarity_medium_threshold := 3 / 5 }

/-- A commit with the given sha, timestamp, change count and file count. -/
def mkC (sha : String) (ts tc fc : Int) : CommitInfo :=
  { sha := sha, author := "Mallory", author_email := "mallory@example.com",
    timestamp := ts, message := "work", additions := tc, deletions := 0,
    total_changes := tc, files_changed := fc }

def wTeam : Team :=
  { team_id := "t1", team_name := "Rocket",
    members := [{ name := "Alice", github_username := "Alice", email := none }],
    devpost_url := none, repository_url := "https://github.com/acme/rocket" }

def wRepo : RepositoryInfo :=
  { url := "https://github.com/acme/rocket", name := "rocket", owner := "acme",
    created_at := 0,
    commits := [mkC "a1" 1000 10 1, mkC "a2" 9200 10 1],
    contributors := ["alice"] }

/-- Six small commits before the window start. -/
def wRepoSixEarly : RepositoryInfo :=
  { url := "https://github.com/acme/rocket", name := "rocket", owner := "acme",
    created_at := 0,
    commits := [mkC "e1" 1 1 1, mkC "e2" 2 1 1, mkC "e3" 3 1 1,
                mkC "e4" 4 1 1, mkC "e5" 5 1 1, mkC "e6" 6 1 1],
    contributors := ["alice"] }

/-- A repository with an unauthorized contributor but no matching commits. -/
def wRepoUnauth : RepositoryInfo :=
  { url := "https://github.com/acme/rocket", name := "rocket", owner := "acme",
    created_at := 0,
    commits := [{ sha := "c1", author := "Alice", author_email := "alice@example.com",
                  timestamp := 1500, message := "ok", additions := 2, deletions := 0,
                  total_changes := 2, files_changed := 1 }],
    contributors := ["alice", "EvilBot"] }

/-- One early commit and seven late commits (grace end is 9200). -/
def wRepoLate : RepositoryInfo :=
  { url := "https://github.com/acme/rocket", name := "rocket", owner := "acme",
    created_at := 0,
    commits := [mkC "e1" 500 10 1,
                mkC "l1" 9300 10 1, mkC "l2" 9301 10 1, mkC "l3" 9302 10 1,
                mkC "l4" 9303 10 1, mkC "l5" 9304 10 1, mkC "l6" 9305 10 1,
                mkC "l7" 9306 10 1],
    contributors := ["alice"] }

/-- Repository with two large commits given out of timestamp order. -/
def wRepoBig : RepositoryInfo :=
  { url := "https://github.com/acme/rocket", name := "rocket", owner := "acme",
    created_at := 0,
    commits := [mkC "b2" 1200 600 1, mkC "b1" 1100 700 1],
    contributors := ["alice"] }

/-- The closed set of severities the spec allows. -/
def sevOk (v : Violation) : Prop :=
  v.severity = "high" ∨ v.severity = "medium" ∨ v.severity = "low"

/-! ## Fixtures for the driver claims -/

def wRepoGood : RepositoryInfo :=
  { url := "https://github.com/acme/good", name := "good", owner := "acme",
    created_at := 0, commits := [mkC "g1" 1500 10 1], contributors := ["alice"] }

/-- A fetch collaborator that knows one repository. -/
def wFetch (url : String) : Except String RepositoryInfo :=
  if url = "https://github.com/acme/good" then .ok wRepoGood
  else .error "404 repository not found"

/-- A CSV record whose team has five members: `convert_to_team_model`
raises on it. -/
def wBadTeamData : TeamData :=
  { team_name := "Overstaffed", team_id := "t9",
    repository_url := "https://github.com/acme/good",
    members := [("A", "a", "a@x.com"), ("B", "b", "b@x.com"),
                ("C", "c", "c@x.com"), ("D", "d", "d@x.com"),
                ("E", "e", "e@x.com")],
    devpost_url := none }

def wGoodTeamData : TeamData :=
  { team_name := "Rocket", team_id := "t1",
    repository_url := "https://github.com/acme/good",
    members := [("Alice", "Alice", "alice@example.com")],
    devpost_url := none }

/-- A parseable team whose repository fetch fails. -/
def wFetchFailTeamData : TeamData :=
  { team_name := "Ghost", team_id := "t2",
    repository_url := "https://github.com/acme/missing",
    members := [("Bob", "Bob", "bob@example.com")],
    devpost_url := none }

/-- The number of per-team results, when the run completed. -/
def resultCount {α : Type} : Except String (List α) → Option Nat
  | .ok l => some l.length
  | .error _ => none

/-- The message the run aborted with, if it did. -/
def resultError {α : Type} : Except String α → Option String
  | .ok _ => none
  | .error e => some e

/-! ## Theorems -/

/-! ## `CodeComparisonEngine._normalize_code` (code_comparison.py lines 131-142)

The Python function is a chain of `re.sub` calls.  Each is embedded as a
direct scanner with the exact semantics of the corresponding pattern:

* `re.sub(r'#.*?$', '', content, flags=re.MULTILINE)`: in each line, the
  leftmost `#` starts a match that (forced by `$` and by `.` not crossing
  newlines) extends to the end of that line.  Equivalently: every line keeps
  only its prefix before its first `#`.
* `re.sub(r'//.*?$', ...)` is the same with the two-character opener `//`.
* `re.sub(r'/\*.*?\*/', '', content, flags=re.DOTALL)`: repeatedly remove the
  leftmost `/*`, lazily matched up to the first following `*/`.  If a `/*`
  has no following `*/`, no later opener can have one either (any later
  closer would already close the earlier opener), so the rest is unchanged;
  `re.sub` resumes scanning after each removed match, so text joined across
  a removal seam is not rescanned.
* `re.sub(r'""".*?"""', ...)` and the `'''` variant: same shape with a
  three-character delimiter.
* `re.sub(r'\s+', ' ', content)`: collapse every maximal whitespace run to a
  single space.
* `re.sub(r'^(import|from)\s+.*?$', '', content, flags=re.MULTILINE)`: at a
  line start, `import` or `from` followed by at least one whitespace
  character removes the keyword, the (greedy, possibly newline-crossing)
  whitespace run, and the remainder of the line in which that run ends.
-/

theorem dropWhile_len_le (p : Char → Bool) :
    ∀ l : List Char, (l.dropWhile p).length ≤ l.length := by
  intro l
  induction l with
  | nil => exact le_refl _
  | cons c rest ih =>
    rw [List.dropWhile_cons]
    split
    · exact Nat.le_succ_of_le ih
    · exact le_refl _

theorem dropLineRest_length_le (l : List Char) :
    (dropLineRest l).length ≤ l.length :=
  dropWhile_len_le _ l

theorem dropToStarSlash_length : ∀ {l r : List Char},
    dropToStarSlash l = some r → r.length < l.length := by
  intro l
  induction l with
  | nil => intro r h; simp [dropToStarSlash] at h
  | cons c rest ih =>
    intro r h
    cases rest with
    | nil => simp [dropToStarSlash] at h
    | cons d rest' =>
      rw [dropToStarSlash] at h
      split at h
      · cases h; simp; omega
      · exact Nat.lt_succ_of_lt (ih h)

theorem dropToTriple_length {q : Char} : ∀ {l r : List Char},
    dropToTriple q l = some r → r.length < l.length := by
  intro l
  induction l with
  | nil => intro r h; simp [dropToTriple] at h
  | cons a rest ih =>
    intro r h
    match rest with
    | [] => simp [dropToTriple] at h
    | [b] => simp [dropToTriple] at h
    | b :: c :: rest' =>
      rw [dropToTriple] at h
      split at h
      · cases h; simp; omega
      · exact Nat.lt_succ_of_lt (ih h)

theorem importKw_length {l r : List Char} (h : importKw l = some r) :
    r.length + 4 ≤ l.length := by
  unfold importKw at h
  split at h
  · rename_i h6
    cases h
    have : l.length ≥ 6 := by
      have := congrArg List.length h6
      simp at this
      omega
    simp
    omega
  · split at h
    · rename_i h4
      cases h
      have : l.length ≥ 4 := by
        have := congrArg List.length h4
        simp at this
        omega
      simp
      omega
    · cases h

theorem importMatchRest_length {l r : List Char}
    (h : importMatchRest l = some r) : r.length < l.length := by
  unfold importMatchRest at h
  cases hk : importKw l with
  | none => rw [hk] at h; cases h
  | some r1 =>
    rw [hk] at h
    have hlen := importKw_length hk
    cases r1 with
    | nil => cases h
    | cons c r2 =>
      simp only at h
      split at h
      · cases h
        have h1 : ((r2.dropWhile pyIsSpace)).length ≤ r2.length :=
          dropWhile_len_le _ _
        have h2 := dropLineRest_length_le (r2.dropWhile pyIsSpace)
        simp at hlen
        omega
      · cases h

theorem stripHashCommentsF_id : ∀ (fuel : Nat) (l : List Char),
    l.length < fuel → (∀ c ∈ l, c ≠ '#') →
    stripHashCommentsF fuel l = l := by
  intro fuel
  induction fuel with
  | zero => intro l h; omega
  | succ fuel ih =>
    intro l hlen hmem
    cases l with
    | nil => rfl
    | cons c rest =>
      rw [stripHashCommentsF]
      rw [if_neg (hmem c (List.mem_cons_self c rest))]
      rw [ih rest (by simp at hlen; omega)
        (fun d hd => hmem d (List.mem_cons_of_mem c hd))]

theorem stripSlashCommentsF_id : ∀ (fuel : Nat) (l : List Char),
    l.length < fuel → (∀ c ∈ l, c ≠ '/') →
    stripSlashCommentsF fuel l = l := by
  intro fuel
  induction fuel with
  | zero => intro l h; omega
  | succ fuel ih =>
    intro l hlen hmem
    match l with
    | [] => rfl
    | [c] => rfl
    | c :: d :: rest =>
      rw [stripSlashCommentsF]
      rw [if_neg (by
        intro hcd
        exact hmem c (List.mem_cons_self _ _) hcd.1)]
      rw [ih (d :: rest) (by simp at hlen ⊢; omega)
        (fun e he => hmem e (List.mem_cons_of_mem c he))]

theorem stripBlockCommentsF_id : ∀ (fuel : Nat) (l : List Char),
    l.length < fuel → (∀ c ∈ l, c ≠ '/') →
    stripBlockCommentsF fuel l = l := by
  intro fuel
  induction fuel with
  | zero => intro l h; omega
  | succ fuel ih =>
    intro l hlen hmem
    match l with
    | [] => rfl
    | [c] => rfl
    | c :: d :: rest =>
      rw [stripBlockCommentsF]
      rw [if_neg (by
        intro hcd
        exact hmem c (List.mem_cons_self _ _) hcd.1)]
      rw [ih (d :: rest) (by simp at hlen ⊢; omega)
        (fun e he => hmem e (List.mem_cons_of_mem c he))]

theorem stripTriplesF_id (q : Char) : ∀ (fuel : Nat) (l : List Char),
    l.length < fuel → (∀ c ∈ l, c ≠ q) →
    stripTriplesF q fuel l = l := by
  intro fuel
  induction fuel with
  | zero => intro l h; omega
  | succ fuel ih =>
    intro l hlen hmem
    match l with
    | [] => rfl
    | [a] => rfl
    | [a, b] => rfl
    | a :: b :: c :: rest =>
      rw [stripTriplesF]
      rw [if_neg (by
        intro habc
        exact hmem a (List.mem_cons_self _ _) habc.1)]
      rw [ih (b :: c :: rest) (by simp at hlen ⊢; omega)
        (fun e he => hmem e (List.mem_cons_of_mem a he))]

/-- Characters whose whitespace is a single space, with no adjacent pair of
spaces, are fixed by whitespace collapsing (in both scanner states, provided
the head is not a space in the in-run state). -/
theorem collapseWsGo_id : ∀ (l : List Char),
    (∀ c ∈ l, pyIsSpace c = true → c = ' ') → noDoubleSpace l = true →
    collapseWsGo false l = l ∧
      (l.head? ≠ some ' ' → collapseWsGo true l = l) := by
  intro l
  induction l with
  | nil => intro _ _; exact ⟨rfl, fun _ => rfl⟩
  | cons c rest ih =>
    intro hws hnd
    have hwsr : ∀ d ∈ rest, pyIsSpace d = true → d = ' ' :=
      fun d hd => hws d (List.mem_cons_of_mem c hd)
    have hndr : noDoubleSpace rest = true := by
      cases rest with
      | nil => rfl
      | cons d rest2 =>
        rw [noDoubleSpace] at hnd
        split at hnd
        · cases hnd
        · exact hnd
    obtain ⟨ih1, ih2⟩ := ih hwsr hndr
    by_cases hsp : pyIsSpace c = true
    · have hc : c = ' ' := hws c (List.mem_cons_self _ _) hsp
      subst hc
      have hrh : rest.head? ≠ some ' ' := by
        cases rest with
        | nil => simp
        | cons d rest2 =>
          rw [noDoubleSpace] at hnd
          split at hnd
          · cases hnd
          · rename_i hne
            simp only [List.head?_cons, ne_eq, Option.some.injEq]
            intro hd
            exact hne ⟨rfl, hd⟩
      constructor
      · rw [collapseWsGo, if_pos hsp, if_neg (by simp)]
        rw [ih2 hrh]
      · intro hh
        simp at hh
    · constructor
      · rw [collapseWsGo, if_neg hsp, ih1]
      · intro _
        rw [collapseWsGo, if_neg hsp, ih1]

/-- In copy state (`atStart = false`), a newline-free suffix is emitted
verbatim. -/
theorem stripImportsGoF_copy : ∀ (fuel : Nat) (l : List Char),
    l.length < fuel → (∀ c ∈ l, c ≠ '\n') →
    stripImportsGoF fuel false l = l := by
  intro fuel
  induction fuel with
  | zero => intro l h; omega
  | succ fuel ih =>
    intro l hlen hmem
    cases l with
    | nil => rfl
    | cons c rest =>
      rw [stripImportsGoF, if_neg (by simp)]
      rw [show (decide (c = '\n')) = false by simp [hmem c (List.mem_cons_self _ _)]]
      rw [ih rest (by simp at hlen; omega)
        (fun d hd => hmem d (List.mem_cons_of_mem c hd))]

theorem stripImports_id (l : List Char)
    (hni : importMatchRest l = none) (hnl : ∀ c ∈ l, c ≠ '\n') :
    stripImports l = l := by
  unfold stripImports
  cases l with
  | nil => rfl
  | cons c rest =>
    have hc : (decide (c = '\n')) = false := by
      simp [hnl c (List.mem_cons_self _ _)]
    simp only [stripImportsGoF, if_true, hni, hc]
    rw [stripImportsGoF_copy ((c :: rest).length) rest (by simp)
      (fun d hd => hnl d (List.mem_cons_of_mem c hd))]

theorem pyStripL_id (l : List Char)
    (hws : ∀ c ∈ l, pyIsSpace c = true → c = ' ')
    (hh : l.head? ≠ some ' ') (hl : l.getLast? ≠ some ' ') :
    pyStripL l = l := by
  unfold pyStripL
  have h1 : l.dropWhile pyIsSpace = l := by
    cases l with
    | nil => rfl
    | cons c rest =>
      rw [List.dropWhile_cons, if_neg]
      intro hsp
      have := hws c (List.mem_cons_self _ _) hsp
      simp [this] at hh
  rw [h1]
  have h2 : l.reverse.dropWhile pyIsSpace = l.reverse := by
    cases hr : l.reverse with
    | nil => rfl
    | cons c rest =>
      rw [List.dropWhile_cons, if_neg]
      intro hsp
      have hcmem : c ∈ l := by
        have : c ∈ l.reverse := by rw [hr]; exact List.mem_cons_self _ _
        simpa using this
      have hc : c = ' ' := hws c hcmem hsp
      have : l.getLast? = some c := by
        rw [← List.head?_reverse, hr]
        rfl
      rw [this, hc] at hl
      exact hl rfl
  rw [h2, List.reverse_reverse]

theorem pyLowerL_id (l : List Char) (h : ∀ c ∈ l, c.toLower = c) :
    pyLowerL l = l := by
  induction l with
  | nil => rfl
  | cons c rest ih =>
    unfold pyLowerL at *
    rw [List.map_cons]
    rw [show pyLowerChar c = c from h c (List.mem_cons_self _ _)]
    rw [ih (fun d hd => h d (List.mem_cons_of_mem c hd))]

/-- Every stage of `_normalize_code` fixes a `cleanNF` string. -/
theorem normalizeL_id (l : List Char) (h : cleanNF l = true) :
    normalizeL l = l := by
  unfold cleanNF at h
  simp only [Bool.and_eq_true, List.all_eq_true, bne_iff_ne, ne_eq,
    Bool.or_eq_true, Bool.not_eq_true', beq_iff_eq, Option.isNone_iff_eq_none,
    decide_eq_true_eq] at h
  obtain ⟨⟨⟨⟨hall, hnd⟩, hhead⟩, hlast⟩, himp⟩ := h
  have hhash : ∀ c ∈ l, c ≠ '#' := fun c hc => (hall c hc).1.1.1.1.1
  have hslash : ∀ c ∈ l, c ≠ '/' := fun c hc => (hall c hc).1.1.1.1.2
  have hdq : ∀ c ∈ l, c ≠ '"' := fun c hc => (hall c hc).1.1.1.2
  have hsq : ∀ c ∈ l, c ≠ '\'' := fun c hc => (hall c hc).1.1.2
  have hws : ∀ c ∈ l, pyIsSpace c = true → c = ' ' := by
    intro c hc hsp
    rcases (hall c hc).1.2 with h1 | h1
    · rw [hsp] at h1; cases h1
    · exact h1
  have hlow : ∀ c ∈ l, c.toLower = c := fun c hc => (hall c hc).2
  have hnl : ∀ c ∈ l, c ≠ '\n' := by
    intro c hc heq
    subst heq
    have := hws _ hc (by decide)
    cases this
  unfold normalizeL
  rw [show stripHashComments l = l from
    stripHashCommentsF_id _ l (by omega) hhash]
  rw [show stripSlashComments l = l from
    stripSlashCommentsF_id _ l (by omega) hslash]
  rw [show stripBlockComments l = l from
    stripBlockCommentsF_id _ l (by omega) hslash]
  rw [show stripTriples '"' l = l from
    stripTriplesF_id _ _ l (by omega) hdq]
  rw [show stripTriples '\'' l = l from
    stripTriplesF_id _ _ l (by omega) hsq]
  rw [show collapseWs l = l from (collapseWsGo_id l hws hnd).1]
  rw [stripImports_id l himp hnl]
  rw [pyStripL_id l hws hhead hlast]
  exact pyLowerL_id l hlow

theorem dpInner_ok {alo ahi blo bhi i : Nat} {jlenPrev : Nat → Nat}
    (hi1 : alo ≤ i) (hi2 : i < ahi)
    (hA : ∀ j, jlenPrev j ≤ i - alo) (hB : ∀ j, jlenPrev j ≤ j + 1 - blo) :
    ∀ (js : List Nat) (newj : Nat → Nat) (best : FMatch),
    (∀ j ∈ js, blo ≤ j ∧ j < bhi) →
    FMOk alo ahi blo bhi best →
    (∀ j, newj j ≤ i + 1 - alo) → (∀ j, newj j ≤ j + 1 - blo) →
    FMOk alo ahi blo bhi (dpInner jlenPrev i js newj best).2 ∧
      (∀ j, (dpInner jlenPrev i js newj best).1 j ≤ i + 1 - alo) ∧
      (∀ j, (dpInner jlenPrev i js newj best).1 j ≤ j + 1 - blo) := by
  intro js
  induction js with
  | nil =>
    intro newj best _ hok hn1 hn2
    exact ⟨hok, hn1, hn2⟩
  | cons j js ih =>
    intro newj best hjs hok hn1 hn2
    have hj := hjs j (List.mem_cons_self _ _)
    have hjs2 : ∀ x ∈ js, blo ≤ x ∧ x < bhi :=
      fun x hx => hjs x (List.mem_cons_of_mem _ hx)
    rw [dpInner]
    set k := (if j = 0 then 0 else jlenPrev (j - 1)) + 1 with hkdef
    have hkA : k ≤ i + 1 - alo := by
      rw [hkdef]
      split
      · omega
      · have := hA (j - 1)
        omega
    have hkB : k ≤ j + 1 - blo := by
      rw [hkdef]
      split
      · omega
      · have h1 := hB (j - 1)
        have h2 : blo ≤ j := hj.1
        omega
    refine ih (fun x => if x = j then k else newj x)
      (if best.sz < k then ⟨i + 1 - k, j + 1 - k, k⟩ else best) hjs2 ?_ ?_ ?_
    · split
      · have hblo : blo ≤ j := hj.1
        have hbhi : j < bhi := hj.2
        refine ⟨?_, ?_, Or.inl ⟨?_, ?_⟩⟩ <;> simp only <;> omega
      · exact hok
    · intro x
      by_cases hx : x = j
      · simp [hx, hkA]
      · simp only [if_neg hx]
        exact hn1 x
    · intro x
      by_cases hx : x = j
      · subst hx
        simp [hkB]
      · simp only [if_neg hx]
        exact hn2 x

theorem dpScan_ok {a b : List Char} {alo ahi blo bhi : Nat} :
    ∀ (steps i : Nat) (jlen : Nat → Nat) (best : FMatch),
    alo ≤ i → i + steps ≤ ahi →
    (∀ j, jlen j ≤ i - alo) → (∀ j, jlen j ≤ j + 1 - blo) →
    FMOk alo ahi blo bhi best →
    FMOk alo ahi blo bhi (dpScan a b blo bhi i steps jlen best) := by
  intro steps
  induction steps with
  | zero =>
    intro i jlen best _ _ _ _ hok
    exact hok
  | succ steps ih =>
    intro i jlen best hi1 hi2 hA hB hok
    rw [dpScan]
    have hjs : ∀ j ∈ (b2jF b (a.getD i ' ')).filter
        (fun j => blo ≤ j && j < bhi), blo ≤ j ∧ j < bhi := by
      intro j hjmem
      have := List.of_mem_filter hjmem
      simp at this
      exact this
    have h := dpInner_ok hi1 (by omega) hA hB
      ((b2jF b (a.getD i ' ')).filter (fun j => blo ≤ j && j < bhi))
      (fun _ => 0) best hjs hok (fun x => by simp) (fun x => by simp)
    exact ih (i + 1) _ _ (by omega) (by omega)
      (fun j => by
        have := h.2.1 j
        omega)
      (fun j => h.2.2 j) h.1

theorem extFrontNJ_ok {a b : List Char} {alo ahi blo bhi : Nat}
    {bjunk : Char → Bool} :
    ∀ (fuel : Nat) (best : FMatch), FMOk alo ahi blo bhi best →
    FMOk alo ahi blo bhi (extFrontNJ a b alo blo bjunk fuel best) := by
  intro fuel
  induction fuel with
  | zero => intro best hok; exact hok
  | succ fuel ih =>
    intro best hok
    rw [extFrontNJ]
    split
    · rename_i hcond
      refine ih _ ?_
      obtain ⟨h1, h2, h3⟩ := hok
      refine ⟨by simp only; omega, by simp only; omega, ?_⟩
      rcases h3 with h3 | h3
      · exact Or.inl ⟨by simp only; omega, by simp only; omega⟩
      · -- the empty initial state has bi = alo, contradicting alo < bi
        exact absurd hcond.1 (by omega)
    · exact hok

theorem extBackNJ_ok {a b : List Char} {alo ahi blo bhi : Nat}
    {bjunk : Char → Bool} :
    ∀ (fuel : Nat) (best : FMatch), FMOk alo ahi blo bhi best →
    FMOk alo ahi blo bhi (extBackNJ a b ahi bhi bjunk fuel best) := by
  intro fuel
  induction fuel with
  | zero => intro best hok; exact hok
  | succ fuel ih =>
    intro best hok
    rw [extBackNJ]
    split
    · rename_i hcond
      refine ih _ ?_
      obtain ⟨h1, h2, _⟩ := hok
      exact ⟨by simp only; omega, by simp only; omega,
        Or.inl ⟨by simp only; omega, by simp only; omega⟩⟩
    · exact hok

theorem extFrontJ_ok {a b : List Char} {alo ahi blo bhi : Nat}
    {bjunk : Char → Bool} :
    ∀ (fuel : Nat) (best : FMatch), FMOk alo ahi blo bhi best →
    FMOk alo ahi blo bhi (extFrontJ a b alo blo bjunk fuel best) := by
  intro fuel
  induction fuel with
  | zero => intro best hok; exact hok
  | succ fuel ih =>
    intro best hok
    rw [extFrontJ]
    split
    · rename_i hcond
      refine ih _ ?_
      obtain ⟨h1, h2, h3⟩ := hok
      refine ⟨by simp only; omega, by simp only; omega, ?_⟩
      rcases h3 with h3 | h3
      · exact Or.inl ⟨by simp only; omega, by simp only; omega⟩
      · exact absurd hcond.1 (by omega)
    · exact hok

theorem extBackJ_ok {a b : List Char} {alo ahi blo bhi : Nat}
    {bjunk : Char → Bool} :
    ∀ (fuel : Nat) (best : FMatch), FMOk alo ahi blo bhi best →
    FMOk alo ahi blo bhi (extBackJ a b ahi bhi bjunk fuel best) := by
  intro fuel
  induction fuel with
  | zero => intro best hok; exact hok
  | succ fuel ih =>
    intro best hok
    rw [extBackJ]
    split
    · rename_i hcond
      refine ih _ ?_
      obtain ⟨h1, h2, _⟩ := hok
      exact ⟨by simp only; omega, by simp only; omega,
        Or.inl ⟨by simp only; omega, by simp only; omega⟩⟩
    · exact hok

theorem findLongestMatch_ok (a b : List Char) (alo ahi blo bhi : Nat) :
    FMOk alo ahi blo bhi (findLongestMatch a b alo ahi blo bhi) := by
  have hinit : FMOk alo ahi blo bhi ⟨alo, blo, 0⟩ :=
    ⟨le_refl _, le_refl _, Or.inr ⟨rfl, rfl, rfl⟩⟩
  have h0 : FMOk alo ahi blo bhi
      (dpScan a b blo bhi alo (ahi - alo) (fun _ => 0) ⟨alo, blo, 0⟩) := by
    by_cases hle : alo ≤ ahi
    · exact dpScan_ok (ahi - alo) alo _ _ (le_refl _) (by omega)
        (fun _ => by omega) (fun _ => by omega) hinit
    · have : ahi - alo = 0 := by omega
      rw [this, dpScan]
      exact hinit
  unfold findLongestMatch
  exact extBackJ_ok _ _ (extFrontJ_ok _ _ (extBackNJ_ok _ _ (extFrontNJ_ok _ _ h0)))

/-- Fuel does not matter once it exceeds `(ahi - alo) + (bhi - blo)`:
the wrapper's result is the true value of the recursion. -/
theorem matchTotalF_fuel (a b : List Char) : ∀ (fuel fuel2 alo ahi blo bhi : Nat),
    (ahi - alo) + (bhi - blo) < fuel → (ahi - alo) + (bhi - blo) < fuel2 →
    matchTotalF a b fuel alo ahi blo bhi = matchTotalF a b fuel2 alo ahi blo bhi := by
  intro fuel
  induction fuel with
  | zero => intro fuel2 alo ahi blo bhi h1 h2; omega
  | succ fuel ih =>
    intro fuel2 alo ahi blo bhi h1 h2
    cases fuel2 with
    | zero => omega
    | succ fuel2 =>
      rw [matchTotalF, matchTotalF]
      have hok := findLongestMatch_ok a b alo ahi blo bhi
      obtain ⟨hk1, hk2, hk3⟩ := hok
      split
      · rfl
      · rename_i hsz
        rcases hk3 with hk3 | hk3
        · rw [ih fuel2 alo (findLongestMatch a b alo ahi blo bhi).bi blo
            (findLongestMatch a b alo ahi blo bhi).bj (by omega) (by omega)]
          rw [ih fuel2 ((findLongestMatch a b alo ahi blo bhi).bi +
              (findLongestMatch a b alo ahi blo bhi).sz) ahi
            ((findLongestMatch a b alo ahi blo bhi).bj +
              (findLongestMatch a b alo ahi blo bhi).sz) bhi (by omega) (by omega)]
        · exact absurd hk3.1 hsz

theorem runLen_of_vis {l : List Char} {i : Nat} (h : visAt l i = true) :
    runLen l i = pRun l i + 1 := by
  cases i with
  | zero => simp [runLen, pRun, h]
  | succ i => simp [runLen, pRun, h]

theorem runLen_of_not_vis {l : List Char} {i : Nat} (h : visAt l i = false) :
    runLen l i = 0 := by
  cases i with
  | zero => simp [runLen, h]
  | succ i => simp [runLen, h]

theorem runLen_le {l : List Char} : ∀ i, runLen l i ≤ i + 1 := by
  intro i
  induction i with
  | zero =>
    rw [runLen]
    split <;> omega
  | succ i ih =>
    rw [runLen]
    split <;> omega

theorem runLen_le_maxRun {l : List Char} : ∀ {j i : Nat}, j < i →
    runLen l j ≤ maxRun l i := by
  intro j i
  induction i with
  | zero => omega
  | succ i ih =>
    intro hj
    rw [maxRun]
    rcases Nat.lt_or_ge j i with h | h
    · exact le_trans (ih h) (le_max_left _ _)
    · have : j = i := by omega
      subst this
      exact le_max_right _ _

theorem mem_occList {l : List Char} {c : Char} {j : Nat} :
    j ∈ occList l c ↔ j < l.length ∧ l.getD j ' ' = c := by
  simp [occList, List.mem_filter, List.mem_range]

theorem b2jF_cases (l : List Char) (c : Char) :
    b2jF l c = occList l c ∨ b2jF l c = [] := by
  unfold b2jF
  by_cases h : l.length ≥ 200 ∧ (occList l c).length > l.length / 100 + 1
  · exact Or.inr (by rw [if_pos h])
  · exact Or.inl (by rw [if_neg h])

theorem mem_b2jF {l : List Char} {c : Char} {j : Nat} (h : j ∈ b2jF l c) :
    j < l.length ∧ l.getD j ' ' = c := by
  rcases b2jF_cases l c with hc | hc
  · rw [hc] at h
    exact mem_occList.mp h
  · rw [hc] at h
    cases h

theorem vis_of_mem_b2jF {l : List Char} {c : Char} {j : Nat}
    (h : j ∈ b2jF l c) : visAt l j = true := by
  have hch := mem_b2jF h
  unfold visAt
  rw [hch.2]
  have : b2jF l c ≠ [] := by
    intro hnil
    rw [hnil] at h
    cases h
  simp [List.isEmpty_iff, this]

theorem self_mem_b2jF {l : List Char} {i : Nat} (hi : i < l.length)
    (hv : visAt l i = true) : i ∈ b2jF l (l.getD i ' ') := by
  unfold visAt at hv
  rcases b2jF_cases l (l.getD i ' ') with hc | hc
  · rw [hc]
    exact mem_occList.mpr ⟨hi, rfl⟩
  · rw [hc] at hv
    simp at hv

theorem b2jF_pairwise (l : List Char) (c : Char) :
    (b2jF l c).Pairwise (· < ·) := by
  rcases b2jF_cases l c with hc | hc
  · rw [hc]
    exact (List.pairwise_lt_range _).filter _
  · rw [hc]
    exact List.Pairwise.nil

/-- Processing the occurrence positions after `i` (every `j > i`): no update
can fire, since every chain value is bounded by `runLen l i`, which the best
size (already `maxRun l (i+1)`) dominates. -/
theorem dpInner_diag_post {l : List Char} {i : Nat}
    {jlenPrev : Nat → Nat}
    (hP1 : ∀ j, jlenPrev j ≤ runLen l j)
    (hP2 : ∀ j, jlenPrev j ≤ pRun l i)
    (hvi : visAt l i = true) :
    ∀ (js : List Nat) (newj : Nat → Nat) (best : FMatch),
    js.Pairwise (· < ·) →
    (∀ j ∈ js, visAt l j = true) →
    (∀ j ∈ js, i < j) →
    best.bi = best.bj → best.sz = maxRun l (i + 1) → best.bi + best.sz ≤ i + 1 →
    (∀ j, newj j ≤ runLen l j) → (∀ j, newj j ≤ runLen l i) →
    newj i = runLen l i →
    (dpInner jlenPrev i js newj best).2.bi = (dpInner jlenPrev i js newj best).2.bj ∧
    (dpInner jlenPrev i js newj best).2.sz = maxRun l (i + 1) ∧
    (dpInner jlenPrev i js newj best).2.bi + (dpInner jlenPrev i js newj best).2.sz ≤ i + 1 ∧
    (∀ j, (dpInner jlenPrev i js newj best).1 j ≤ runLen l j) ∧
    (∀ j, (dpInner jlenPrev i js newj best).1 j ≤ runLen l i) ∧
    (dpInner jlenPrev i js newj best).1 i = runLen l i := by
  intro js
  induction js with
  | nil =>
    intro newj best _ _ _ hd hsz hle hn1 hn2 hni
    exact ⟨hd, hsz, hle, hn1, hn2, hni⟩
  | cons j js ih =>
    intro newj best hpw hvis hgt hd hsz hle hn1 hn2 hni
    have hj_gt : i < j := hgt j (List.mem_cons_self _ _)
    have hj_vis : visAt l j = true := hvis j (List.mem_cons_self _ _)
    have hj_pos : j ≠ 0 := by omega
    rw [dpInner]
    have hkval : (if j = 0 then 0 else jlenPrev (j - 1)) + 1 =
        jlenPrev (j - 1) + 1 := by rw [if_neg hj_pos]
    have hrunj : runLen l j = runLen l (j - 1) + 1 := by
      have := runLen_of_vis hj_vis
      cases j with
      | zero => omega
      | succ j' => simpa [pRun] using this
    have hruni : runLen l i = pRun l i + 1 := runLen_of_vis hvi
    have hk_runj : (if j = 0 then 0 else jlenPrev (j - 1)) + 1 ≤ runLen l j := by
      rw [hkval, hrunj]
      have := hP1 (j - 1)
      omega
    have hk_runi : (if j = 0 then 0 else jlenPrev (j - 1)) + 1 ≤ runLen l i := by
      rw [hkval, hruni]
      have := hP2 (j - 1)
      omega
    have hnofire : ¬(best.sz < (if j = 0 then 0 else jlenPrev (j - 1)) + 1) := by
      have hrm : runLen l i ≤ maxRun l (i + 1) := le_max_right _ _
      rw [hsz]
      rw [show maxRun l (i + 1) = max (maxRun l i) (runLen l i) from rfl]
      omega
    rw [if_neg hnofire]
    refine ih _ best (List.Pairwise.sublist (List.sublist_cons_self _ _) hpw)
      (fun x hx => hvis x (List.mem_cons_of_mem _ hx))
      (fun x hx => hgt x (List.mem_cons_of_mem _ hx))
      hd hsz hle ?_ ?_ ?_
    · intro x
      by_cases hx : x = j
      · subst hx; simp only [if_pos rfl]; exact hk_runj
      · simp only [if_neg hx]; exact hn1 x
    · intro x
      by_cases hx : x = j
      · subst hx; simp only [if_pos rfl]; exact hk_runi
      · simp only [if_neg hx]; exact hn2 x
    · have : i ≠ j := by omega
      simp only [if_neg this]
      exact hni

/-- Processing the occurrence positions up to and including `i`: positions
before `i` are dominated by older diagonal runs and cannot fire; position `i`
itself records the diagonal run ending at `i` and (if it fires) keeps the
best on the diagonal. -/
theorem dpInner_diag_pre {l : List Char} {i : Nat}
    {jlenPrev : Nat → Nat}
    (hP1 : ∀ j, jlenPrev j ≤ runLen l j)
    (hP2 : ∀ j, jlenPrev j ≤ pRun l i)
    (hP3 : ∀ j, j + 1 = i → jlenPrev j = runLen l j) :
    ∀ (js : List Nat) (newj : Nat → Nat) (best : FMatch),
    js.Pairwise (· < ·) →
    (∀ j ∈ js, visAt l j = true) →
    i ∈ js →
    best.bi = best.bj → best.sz = maxRun l i → best.bi + best.sz ≤ i →
    (∀ j, newj j ≤ runLen l j) → (∀ j, newj j ≤ runLen l i) →
    (dpInner jlenPrev i js newj best).2.bi = (dpInner jlenPrev i js newj best).2.bj ∧
    (dpInner jlenPrev i js newj best).2.sz = maxRun l (i + 1) ∧
    (dpInner jlenPrev i js newj best).2.bi + (dpInner jlenPrev i js newj best).2.sz ≤ i + 1 ∧
    (∀ j, (dpInner jlenPrev i js newj best).1 j ≤ runLen l j) ∧
    (∀ j, (dpInner jlenPrev i js newj best).1 j ≤ runLen l i) ∧
    (dpInner jlenPrev i js newj best).1 i = runLen l i := by
  intro js
  induction js with
  | nil => intro newj best _ _ hmem; cases hmem
  | cons j js ih =>
    intro newj best hpw hvis hmem hd hsz hle hn1 hn2
    have hj_vis : visAt l j = true := hvis j (List.mem_cons_self _ _)
    have hvi : visAt l i = true := by
      rcases List.mem_cons.mp hmem with h | h
      · rw [h]; exact hj_vis
      · exact hvis i (List.mem_cons_of_mem _ h)
    have hruni : runLen l i = pRun l i + 1 := runLen_of_vis hvi
    have hcase : j = i ∨ (j < i ∧ i ∈ js) := by
      rcases List.mem_cons.mp hmem with h | h
      · exact Or.inl h.symm
      · refine Or.inr ⟨?_, h⟩
        have := (List.pairwise_cons.mp hpw).1 i h
        omega
    rw [dpInner]
    rcases hcase with hji | ⟨hjlt, hitail⟩
    · -- j = i: the diagonal completion; the chain value k equals runLen l i
      subst hji
      generalize hkg : (if j = 0 then 0 else jlenPrev (j - 1)) + 1 = k
      have hkeq : k = runLen l j := by
        rw [← hkg]
        cases j with
        | zero =>
          rw [if_pos rfl, runLen_of_vis hvi]
          simp [pRun]
        | succ j' =>
          rw [if_neg (Nat.succ_ne_zero j'), runLen_of_vis hvi]
          have h3 := hP3 j' rfl
          simp only [Nat.succ_sub_one, pRun]
          omega
      have hkle : k ≤ j + 1 := by
        have := runLen_le (l := l) j
        omega
      have htail_gt : ∀ x ∈ js, j < x := (List.pairwise_cons.mp hpw).1
      have htail_pw : js.Pairwise (· < ·) :=
        List.Pairwise.sublist (List.sublist_cons_self _ _) hpw
      have htail_vis : ∀ x ∈ js, visAt l x = true :=
        fun x hx => hvis x (List.mem_cons_of_mem _ hx)
      have hknew : ∀ x, (fun x => if x = j then k else newj x) x ≤ runLen l x := by
        intro x
        by_cases hx : x = j
        · subst hx
          dsimp only
          rw [if_pos rfl]
          omega
        · dsimp only
          rw [if_neg hx]
          exact hn1 x
      have hknew2 : ∀ x, (fun x => if x = j then k else newj x) x ≤ runLen l j := by
        intro x
        by_cases hx : x = j
        · subst hx
          dsimp only
          rw [if_pos rfl]
          omega
        · dsimp only
          rw [if_neg hx]
          exact hn2 x
      have hknewi : (fun x => if x = j then k else newj x) j = runLen l j := by
        dsimp only
        rw [if_pos rfl]
        exact hkeq
      split
      · -- update fires: maxRun l j < runLen l j, new best ⟨j+1-k, j+1-k, k⟩
        rename_i hfire
        rw [hsz] at hfire
        have hmax : maxRun l (j + 1) = runLen l j := by
          show max (maxRun l j) (runLen l j) = runLen l j
          exact Nat.max_eq_right (by omega)
        refine dpInner_diag_post hP1 hP2 hvi js _ _
          htail_pw htail_vis htail_gt rfl ?_ ?_ hknew hknew2 hknewi
        · show k = maxRun l (j + 1)
          rw [hmax, hkeq]
        · show j + 1 - k + k ≤ j + 1
          omega
      · -- no update: runLen l j ≤ maxRun l j, best and its bound carry over
        rename_i hnofire
        rw [hsz] at hnofire
        have hmax : maxRun l (j + 1) = maxRun l j := by
          show max (maxRun l j) (runLen l j) = maxRun l j
          exact Nat.max_eq_left (by omega)
        refine dpInner_diag_post hP1 hP2 hvi js _ _
          htail_pw htail_vis htail_gt hd ?_ (by omega) hknew hknew2 hknewi
        rw [hmax, hsz]
    · -- j < i: dominated by an older diagonal run; no update fires
      generalize hkg : (if j = 0 then 0 else jlenPrev (j - 1)) + 1 = k
      have hk_runj : k ≤ runLen l j := by
        rw [← hkg]
        cases j with
        | zero =>
          rw [if_pos rfl, runLen_of_vis hj_vis]
          simp [pRun]
        | succ j' =>
          rw [if_neg (Nat.succ_ne_zero j'), runLen_of_vis hj_vis]
          have h1 := hP1 j'
          simp only [Nat.succ_sub_one, pRun]
          omega
      have hk_runi : k ≤ runLen l i := by
        rw [← hkg, hruni]
        split
        · omega
        · have := hP2 (j - 1)
          omega
      have hnofire : ¬(best.sz < k) := by
        rw [hsz]
        have := runLen_le_maxRun (l := l) hjlt
        omega
      rw [if_neg hnofire]
      refine ih _ best
        (List.Pairwise.sublist (List.sublist_cons_self _ _) hpw)
        (fun x hx => hvis x (List.mem_cons_of_mem _ hx))
        hitail hd hsz hle ?_ ?_
      · intro x
        by_cases hx : x = j
        · subst hx
          rw [if_pos rfl]
          exact hk_runj
        · rw [if_neg hx]
          exact hn1 x
      · intro x
        by_cases hx : x = j
        · subst hx
          rw [if_pos rfl]
          exact hk_runi
        · rw [if_neg hx]
          exact hn2 x

/-- Scanning every row of a self-comparison keeps the best on the diagonal
with size `maxRun`. -/
theorem dpScan_diag {l : List Char} : ∀ (steps i : Nat) (jlen : Nat → Nat) (best : FMatch),
    i + steps = l.length →
    (∀ j, jlen j ≤ runLen l j) → (∀ j, jlen j ≤ pRun l i) →
    (∀ j, j + 1 = i → jlen j = runLen l j) →
    best.bi = best.bj → best.sz = maxRun l i → best.bi + best.sz ≤ i →
    (dpScan l l 0 l.length i steps jlen best).bi =
      (dpScan l l 0 l.length i steps jlen best).bj ∧
    (dpScan l l 0 l.length i steps jlen best).sz = maxRun l l.length ∧
    (dpScan l l 0 l.length i steps jlen best).bi +
      (dpScan l l 0 l.length i steps jlen best).sz ≤ l.length := by
  intro steps
  induction steps with
  | zero =>
    intro i jlen best hin h1 h2 h3 hd hsz hle
    rw [dpScan]
    have hi : i = l.length := by omega
    subst hi
    exact ⟨hd, hsz, by omega⟩
  | succ steps ih =>
    intro i jlen best hin h1 h2 h3 hd hsz hle
    rw [dpScan]
    have hiln : i < l.length := by omega
    have hfilter : (b2jF l (l.getD i ' ')).filter (fun j => 0 ≤ j && j < l.length) =
        b2jF l (l.getD i ' ') := by
      apply List.filter_eq_self.mpr
      intro x hx
      have hxl := (mem_b2jF hx).1
      simp only [Bool.and_eq_true, decide_eq_true_eq]
      omega
    rw [hfilter]
    cases hv : visAt l i with
    | false =>
      have hempty : b2jF l (l.getD i ' ') = [] := by
        unfold visAt at hv
        rcases b2jF_cases l (l.getD i ' ') with hc | hc
        · rw [hc] at hv ⊢
          simpa using hv
        · exact hc
      rw [hempty]
      have hi0 : runLen l i = 0 := runLen_of_not_vis hv
      refine ih (i + 1) _ _ (by omega) (fun j => Nat.zero_le _)
        (fun j => Nat.zero_le _) ?_ ?_ ?_ ?_
      · intro j hj
        have hji : j = i := by omega
        rw [hji]
        show (0 : Nat) = runLen l i
        rw [hi0]
      · exact hd
      · show best.sz = maxRun l (i + 1)
        rw [hsz, show maxRun l (i + 1) = max (maxRun l i) (runLen l i) from rfl,
          hi0, Nat.max_zero]
      · exact Nat.le_succ_of_le hle
    | true =>
      have hmem : i ∈ b2jF l (l.getD i ' ') := self_mem_b2jF hiln hv
      have hpair := b2jF_pairwise l (l.getD i ' ')
      have hvisall : ∀ j ∈ b2jF l (l.getD i ' '), visAt l j = true :=
        fun j hj => vis_of_mem_b2jF hj
      have h := dpInner_diag_pre h1 h2 h3 (b2jF l (l.getD i ' '))
        (fun _ => 0) best hpair hvisall hmem hd hsz hle
        (fun j => by simp) (fun j => by simp)
      obtain ⟨hd2, hsz2, hle2, hb1, hb2, hbi⟩ := h
      refine ih (i + 1) _ _ (by omega) hb1 ?_ ?_ hd2 hsz2 hle2
      · intro j
        have := hb2 j
        simpa [pRun] using this
      · intro j hj
        have hji : j = i := by omega
        subst hji
        exact hbi

/-- Front non-junk extension of a diagonal block in a self-comparison slides
it all the way to position 0. -/
theorem extFrontNJ_diag (l : List Char) : ∀ (fuel p s : Nat), p ≤ fuel →
    extFrontNJ l l 0 0 (fun _ => false) fuel ⟨p, p, s⟩ = ⟨0, 0, s + p⟩ := by
  intro fuel
  induction fuel with
  | zero =>
    intro p s hp
    have hp0 : p = 0 := by omega
    subst hp0
    rw [extFrontNJ, Nat.add_zero]
  | succ fuel ih =>
    intro p s hp
    rw [extFrontNJ]
    by_cases hp0 : 0 < p
    · rw [if_pos ⟨hp0, hp0, rfl, rfl⟩]
      rw [ih (p - 1) (s + 1) (by omega)]
      have : s + 1 + (p - 1) = s + p := by omega
      rw [this]
    · have hp0' : p = 0 := by omega
      subst hp0'
      rw [if_neg (by simp), Nat.add_zero]

/-- Back non-junk extension of a position-0 diagonal block in a
self-comparison grows it to the whole string. -/
theorem extBackNJ_diag (l : List Char) : ∀ (fuel s : Nat), s ≤ l.length →
    l.length ≤ s + fuel →
    extBackNJ l l l.length l.length (fun _ => false) fuel ⟨0, 0, s⟩ =
      ⟨0, 0, l.length⟩ := by
  intro fuel
  induction fuel with
  | zero =>
    intro s hs1 hs2
    have : s = l.length := by omega
    subst this
    rw [extBackNJ]
  | succ fuel ih =>
    intro s hs1 hs2
    rw [extBackNJ]
    by_cases hs : s < l.length
    · rw [if_pos ⟨show (0 : Nat) + s < l.length from by omega,
        show (0 : Nat) + s < l.length from by omega, rfl, rfl⟩]
      exact ih (s + 1) (by omega) (by omega)
    · have : s = l.length := by omega
      subst this
      rw [if_neg (by simp)]

/-- With the empty junk set the junk extension loops never fire. -/
theorem extFrontJ_falseJunk (a b : List Char) (alo blo : Nat) :
    ∀ (fuel : Nat) (best : FMatch),
    extFrontJ a b alo blo (fun _ => false) fuel best = best := by
  intro fuel best
  cases fuel with
  | zero => rw [extFrontJ]
  | succ fuel =>
    rw [extFrontJ]
    rw [if_neg]
    rintro ⟨_, _, hj, _⟩
    cases hj

theorem extBackJ_falseJunk (a b : List Char) (ahi bhi : Nat) :
    ∀ (fuel : Nat) (best : FMatch),
    extBackJ a b ahi bhi (fun _ => false) fuel best = best := by
  intro fuel best
  cases fuel with
  | zero => rw [extBackJ]
  | succ fuel =>
    rw [extBackJ]
    rw [if_neg]
    rintro ⟨_, _, hj, _⟩
    cases hj

/-- `find_longest_match` as the explicit composition of its phases. -/
theorem findLongestMatch_eq (a b : List Char) (alo ahi blo bhi : Nat) :
    findLongestMatch a b alo ahi blo bhi =
      extBackJ a b ahi bhi (fun _ => false) ahi
        (extFrontJ a b alo blo (fun _ => false)
          (extBackNJ a b ahi bhi (fun _ => false) ahi
            (extFrontNJ a b alo blo (fun _ => false)
              (dpScan a b blo bhi alo (ahi - alo) (fun _ => 0) ⟨alo, blo, 0⟩).bi
              (dpScan a b blo bhi alo (ahi - alo) (fun _ => 0) ⟨alo, blo, 0⟩))).bi
          (extBackNJ a b ahi bhi (fun _ => false) ahi
            (extFrontNJ a b alo blo (fun _ => false)
              (dpScan a b blo bhi alo (ahi - alo) (fun _ => 0) ⟨alo, blo, 0⟩).bi
              (dpScan a b blo bhi alo (ahi - alo) (fun _ => 0) ⟨alo, blo, 0⟩)))) := rfl

/-- On a self-comparison over the full range, `find_longest_match` returns
the whole diagonal. -/
theorem findLongestMatch_self (l : List Char) :
    findLongestMatch l l 0 l.length 0 l.length = ⟨0, 0, l.length⟩ := by
  rw [findLongestMatch_eq]
  have hd := dpScan_diag (l := l) (l.length - 0) 0 (fun _ => 0) ⟨0, 0, 0⟩
    (by omega) (fun j => Nat.zero_le _) (fun j => Nat.zero_le _)
    (fun j hj => absurd hj (by omega)) rfl rfl (Nat.le_refl 0)
  obtain ⟨hdg, hsz, hle⟩ := hd
  rcases hsc : dpScan l l 0 l.length 0 (l.length - 0) (fun _ => 0) ⟨0, 0, 0⟩
    with ⟨bi0, bj0, sz0⟩
  rw [hsc] at hdg hsz hle
  dsimp only at hdg hsz hle
  subst hdg
  show extBackJ l l l.length l.length (fun _ => false) l.length
    (extFrontJ l l 0 0 (fun _ => false)
      (extBackNJ l l l.length l.length (fun _ => false) l.length
        (extFrontNJ l l 0 0 (fun _ => false) bi0 ⟨bi0, bi0, sz0⟩)).bi
      (extBackNJ l l l.length l.length (fun _ => false) l.length
        (extFrontNJ l l 0 0 (fun _ => false) bi0 ⟨bi0, bi0, sz0⟩))) =
    ⟨0, 0, l.length⟩
  rw [extFrontNJ_diag l bi0 bi0 sz0 (le_refl _)]
  rw [extBackNJ_diag l l.length (sz0 + bi0) (by omega) (by omega)]
  rw [extFrontJ_falseJunk, extBackJ_falseJunk]

/-- `find_longest_match` on an empty range returns the empty initial state. -/
theorem extFrontNJ_stay {a b : List Char} {alo blo : Nat} {bjunk : Char → Bool}
    (fuel : Nat) (best : FMatch) (h : ¬alo < best.bi) :
    extFrontNJ a b alo blo bjunk fuel best = best := by
  cases fuel with
  | zero => rw [extFrontNJ]
  | succ fuel =>
    rw [extFrontNJ]
    rw [if_neg]
    rintro ⟨h1, _, _, _⟩
    exact h h1

theorem extBackNJ_stay {a b : List Char} {ahi bhi : Nat} {bjunk : Char → Bool}
    (fuel : Nat) (best : FMatch) (h : ¬best.bi + best.sz < ahi) :
    extBackNJ a b ahi bhi bjunk fuel best = best := by
  cases fuel with
  | zero => rw [extBackNJ]
  | succ fuel =>
    rw [extBackNJ]
    rw [if_neg]
    rintro ⟨h1, _, _, _⟩
    exact h h1

theorem findLongestMatch_empty (a b : List Char) (x y : Nat) :
    findLongestMatch a b x x y y = ⟨x, y, 0⟩ := by
  rw [findLongestMatch_eq]
  rw [show x - x = 0 from by omega]
  rw [show dpScan a b y y x 0 (fun _ => 0) ⟨x, y, 0⟩ = ⟨x, y, 0⟩ from rfl]
  rw [extFrontNJ_stay _ _ (lt_irrefl x)]
  rw [extBackNJ_stay _ _ (show ¬x + 0 < x from by omega)]
  rw [extFrontJ_falseJunk]
  rw [extBackJ_falseJunk]

theorem matchTotalF_empty (a b : List Char) : ∀ (fuel x y : Nat),
    matchTotalF a b fuel x x y y = 0 := by
  intro fuel x y
  cases fuel with
  | zero => rw [matchTotalF]
  | succ fuel =>
    rw [matchTotalF]
    rw [if_pos]
    rw [findLongestMatch_empty]

/-- Self-comparison matches the entire string. -/
theorem matchTotal_self (l : List Char) :
    matchTotal l l 0 l.length 0 l.length = l.length := by
  unfold matchTotal
  rw [show l.length - 0 + (l.length - 0) + 1 = l.length + l.length + 1 from by omega]
  rw [matchTotalF]
  rw [findLongestMatch_self]
  rcases Nat.eq_zero_or_pos l.length with h | h
  · rw [if_pos h]
    omega
  · rw [if_neg (show ¬(⟨0, 0, l.length⟩ : FMatch).sz = 0 from by
      show ¬l.length = 0
      omega)]
    show matchTotalF l l (l.length + l.length) 0 0 0 0 + l.length +
      matchTotalF l l (l.length + l.length) (0 + l.length) l.length
        (0 + l.length) l.length = l.length
    rw [matchTotalF_empty]
    rw [show (0 + l.length) = l.length from by omega]
    rw [matchTotalF_empty]
    omega

/-- `SequenceMatcher(None, s, s).ratio() == 1.0` for every string. -/
theorem ratioQ_self (l : List Char) : ratioQ l l = 1 := by
  unfold ratioQ
  rcases Nat.eq_zero_or_pos l.length with h | h
  · rw [if_pos (by omega)]
  · rw [if_neg (by omega), matchTotal_self]
    have hnz : ((l.length + l.length : Nat) : ℚ) ≠ 0 := by
      have : (0 : Nat) < l.length + l.length := by omega
      exact_mod_cast Nat.pos_iff_ne_zero.mp this
    rw [div_eq_one_iff_eq hnz]
    push_cast
    ring

/-! ## Helper lemmas for the claims -/

theorem isEmpty_false_ne {α : Type} {l : List α} (h : l.isEmpty = false) :
    ¬(l.isEmpty = true) := by
  rw [h]
  decide

theorem mem_earlyCommits {cfg : HackathonConfig} {repo : RepositoryInfo}
    {c : CommitInfo} :
    c ∈ earlyCommits cfg repo ↔ c ∈ repo.commits ∧ c.timestamp < cfg.start_time := by
  simp [earlyCommits, List.mem_filter]

theorem mem_lateCommits {cfg : HackathonConfig} {repo : RepositoryInfo}
    {c : CommitInfo} :
    c ∈ lateCommits cfg repo ↔
      c ∈ repo.commits ∧ ¬(c.timestamp < cfg.start_time) ∧
        c.timestamp > graceEnd cfg := by
  simp [lateCommits, List.mem_filter]

/-! ## The claims -/

/-- C2: a commit exactly at the window start is never classified early, a
commit exactly at `end + grace` is never classified late; only commits
strictly before the start are early, only commits strictly after the grace
end are late (`_check_commit_timing`'s partition). -/
theorem c2_window_boundaries (cfg : HackathonConfig) (repo : RepositoryInfo)
    (c : CommitInfo) :
    (c ∈ earlyCommits cfg repo ↔
      c ∈ repo.commits ∧ c.timestamp < cfg.start_time) ∧
    (c ∈ lateCommits cfg repo ↔
      c ∈ repo.commits ∧ ¬(c.timestamp < cfg.start_time) ∧
        c.timestamp > graceEnd cfg) ∧
    (c.timestamp = cfg.start_time → c ∉ earlyCommits cfg repo) ∧
    (c.timestamp = graceEnd cfg → c ∉ lateCommits cfg repo) := by
  refine ⟨mem_earlyCommits, mem_lateCommits, ?_, ?_⟩
  · intro heq hmem
    have := mem_earlyCommits.mp hmem
    omega
  · intro heq hmem
    have := mem_lateCommits.mp hmem
    omega

/-- C2 witness: in the sample window, the commit exactly at the start
(timestamp 1000) is not early and the commit exactly at the grace end
(timestamp 9200) is not late. -/
theorem c2_window_boundaries_witness :
    mkC "a1" 1000 10 1 ∉ earlyCommits sampleCfg wRepo ∧
    mkC "a2" 9200 10 1 ∉ lateCommits sampleCfg wRepo :=
  ⟨(c2_window_boundaries sampleCfg wRepo (mkC "a1" 1000 10 1)).2.2.1 (by decide),
   (c2_window_boundaries sampleCfg wRepo (mkC "a2" 9200 10 1)).2.2.2 (by decide)⟩

/-- C6 counterexample: normalization is not idempotent.  `"From x"`
normalizes to `"from x"` (lower-casing happens after import-stripping), and a
second pass strips it as an import line, yielding `""`. -/
theorem c6_counterexample :
    normalizeStr (normalizeStr "From x") ≠ normalizeStr "From x" := by decide

/-- C6 (amended): normalization is idempotent on every input whose first pass
lands in normal form (no comment or string delimiters, single interior spaces
only, lower-case, not beginning with an import/from clause) — but not in
general, since lower-casing and comment stripping can create new matches for
earlier stages, as `normalizeStr "From x" = "from x"` shows. -/
theorem c6_normalize_idempotent_on_clean (x : String)
    (h : cleanNF (normalizeL x.toList) = true) :
    normalizeStr (normalizeStr x) = normalizeStr x := by
  show String.mk (normalizeL (normalizeStr x).toList) = normalizeStr x
  have h2 : (normalizeStr x).toList = normalizeL x.toList := rfl
  rw [h2, normalizeL_id _ h]
  rfl

/-- C6 witness: a already-normal string on which idempotence holds. -/
theorem c6_normalize_idempotent_on_clean_witness :
    cleanNF (normalizeL "def f(x): return x + 1".toList) = true ∧
    normalizeStr (normalizeStr "def f(x): return x + 1") =
      normalizeStr "def f(x): return x + 1" :=
  ⟨by decide, c6_normalize_idempotent_on_clean _ (by decide)⟩

/-- C7 counterexample: the similarity ratio is not symmetric.  With
`A = "abcdze"` and `B = "cdeab"` (both fixed by normalization) the matcher
finds 2 matched characters one way (ratio 4/11) and 3 the other way
(ratio 6/11): in `SequenceMatcher(A, B)` the tie between the equally long
blocks `"ab"` and `"cd"` is broken in favour of `"ab"` (earliest in `A`),
leaving nothing else to match, while in `SequenceMatcher(B, A)` it is broken
in favour of `"cd"`, after which `"e"` still matches in the remaining
region. -/
theorem c7_counterexample :
    calculateSimilarity "abcdze".toList "cdeab".toList ≠
      calculateSimilarity "cdeab".toList "abcdze".toList := by
  have h1 : calculateSimilarity "abcdze".toList "cdeab".toList = 4 / 11 := by
    unfold calculateSimilarity
    rw [show normalizeL "abcdze".toList = "abcdze".toList from by decide,
        show normalizeL "cdeab".toList = "cdeab".toList from by decide]
    unfold ratioQ
    rw [show ("abcdze".toList.length) = 6 from rfl,
        show ("cdeab".toList.length) = 5 from rfl,
        show matchTotal "abcdze".toList "cdeab".toList 0 6 0 5 = 2 from by decide]
    norm_num
  have h2 : calculateSimilarity "cdeab".toList "abcdze".toList = 6 / 11 := by
    unfold calculateSimilarity
    rw [show normalizeL "cdeab".toList = "cdeab".toList from by decide,
        show normalizeL "abcdze".toList = "abcdze".toList from by decide]
    unfold ratioQ
    rw [show ("cdeab".toList.length) = 5 from rfl,
        show ("abcdze".toList.length) = 6 from rfl,
        show matchTotal "cdeab".toList "abcdze".toList 0 5 0 6 = 3 from by decide]
    norm_num
  rw [h1, h2]
  norm_num

/-- C7 (amended): the ratio of any string against itself (after
normalization) is exactly 1.0 — `_calculate_similarity(A, A) = 1` for every
`A`; symmetry, however, fails in general (see the counterexample). -/
theorem c7_self_similarity_one (content : List Char) :
    calculateSimilarity content content = 1 := by
  unfold calculateSimilarity
  exact ratioQ_self _

/-- Boolean form of the recomputed flag: positively many high-severity
violations is the same as `any` high. -/
theorem filter_high_pos_eq_any (violations : List Violation) :
    (decide ((violations.filter (fun v => v.severity = "high")).length > 0)) =
      violations.any (fun v => v.severity == "high") := by
  induction violations with
  | nil => rfl
  | cons v rest ih =>
    rw [List.filter_cons, List.any_cons]
    by_cases h : v.severity = "high"
    · simp [h, beq_iff_eq]
    · simp [h, beq_iff_eq, ih]

/-- C8: `is_flagged` is recomputed from the violations list by the pydantic
validator: whatever value is supplied at construction, the stored flag equals
"some violation has severity high", and two constructions differing only in
the supplied flag are identical; in particular `analyze_team`'s result
satisfies the invariant. -/
theorem c8_is_flagged_recomputed (team : Team) (repo : RepositoryInfo)
    (violations : List Violation) (b1 b2 : Bool) (summary : String) (ts : Int) :
    ((mkTeamAnalysisResult team repo violations b1 summary ts).is_flagged =
      violations.any (fun v => v.severity == "high")) ∧
    mkTeamAnalysisResult team repo violations b1 summary ts =
      mkTeamAnalysisResult team repo violations b2 summary ts ∧
    (∀ (cfg : HackathonConfig) (acfg : AnalysisConfig)
        (engine : Option CodeComparisonEngine)
        (getFiles : Option (String → Except String (List CodeFile))) (now : Int),
      (analyzeTeam cfg acfg engine getFiles team repo now).is_flagged =
        ((analyzeTeam cfg acfg engine getFiles team repo now).violations.any
          (fun v => v.severity == "high"))) := by
  refine ⟨?_, rfl, ?_⟩
  · exact filter_high_pos_eq_any violations
  · intro cfg acfg engine getFiles now
    exact filter_high_pos_eq_any _

/-- C3 counterexample: with six early commits the early-branch evidence
lists six examples — the `commits` list in the evidence is NOT capped at 5
(the `[:5]` cap exists only in the late branch). -/
theorem c3_counterexample :
    (checkCommitTiming sampleCfg wRepoSixEarly).length = 1 ∧
    ((checkCommitTiming sampleCfg wRepoSixEarly).head?.bind
      (fun v => evListLen v.evidence "commits")) = some 6 := by
  exact ⟨by decide, by decide⟩

/-- C3 (amended): `_check_commit_timing` emits one violation per non-empty
partition.  The early violation's evidence carries the early-commit count,
the aggregate `total_changes_before`, and one example per early commit with
no cap; the late violation's evidence carries the late count, the major-late
count, at most five examples, and no aggregate changed-line total. -/
theorem c3_commit_timing_evidence (cfg : HackathonConfig)
    (repo : RepositoryInfo) :
    ((earlyCommits cfg repo).isEmpty = false →
      ∃ v rest, checkCommitTiming cfg repo = v :: rest ∧
        evNat v.evidence "early_commits" = some (earlyCommits cfg repo).length ∧
        evInt v.evidence "total_changes_before" =
          some (((earlyCommits cfg repo).map (fun c => c.total_changes)).sum) ∧
        evListLen v.evidence "commits" = some (earlyCommits cfg repo).length) ∧
    ((lateCommits cfg repo).isEmpty = false →
      ∃ v, (checkCommitTiming cfg repo).getLast? = some v ∧
        evNat v.evidence "late_commits" = some (lateCommits cfg repo).length ∧
        evNat v.evidence "major_late_commits" =
          some ((lateCommits cfg repo).filter
            (fun c => c.total_changes > 50)).length ∧
        evListLen v.evidence "commits" =
          some (min 5 (lateCommits cfg repo).length) ∧
        evLookup "total_changes_before" v.evidence = none) ∧
    (checkCommitTiming cfg repo).length =
      (if (earlyCommits cfg repo).isEmpty then 0 else 1) +
      (if (lateCommits cfg repo).isEmpty then 0 else 1) := by
  refine ⟨?_, ?_, ?_⟩
  · intro hE
    unfold checkCommitTiming
    rw [if_neg (isEmpty_false_ne hE)]
    refine ⟨_, _, rfl, rfl, rfl, ?_⟩
    simp [evListLen, evLookup]
  · intro hL
    unfold checkCommitTiming
    by_cases hE : (earlyCommits cfg repo).isEmpty
    · rw [if_pos hE, if_neg (isEmpty_false_ne hL)]
      refine ⟨_, rfl, rfl, rfl, ?_, rfl⟩
      simp [evListLen, evLookup, List.length_take]
    · rw [if_neg hE, if_neg (isEmpty_false_ne hL)]
      refine ⟨_, rfl, rfl, rfl, ?_, rfl⟩
      simp [evListLen, evLookup, List.length_take]
  · unfold checkCommitTiming
    by_cases hE : (earlyCommits cfg repo).isEmpty <;>
      by_cases hL : (lateCommits cfg repo).isEmpty <;>
        simp [hE, hL]

/-- C3 witness: a repository with one early and seven late commits gets one
violation per partition; the late evidence lists `min 5 7 = 5` examples and
has no `total_changes_before` entry. -/
theorem c3_commit_timing_evidence_witness :
    (checkCommitTiming sampleCfg wRepoLate).length = 1 + 1 ∧
    ((checkCommitTiming sampleCfg wRepoLate).getLast?.bind
      (fun v => evListLen v.evidence "commits")) = some 5 := by
  obtain ⟨hE, hLate, hlen⟩ := c3_commit_timing_evidence sampleCfg wRepoLate
  obtain ⟨v, hv, hn, hm, hc, hno⟩ := hLate (by decide)
  constructor
  · rw [hlen]; decide
  · rw [hv]
    show evListLen v.evidence "commits" = some 5
    rw [hc]
    decide

/-- C4: `_check_unauthorized_contributors` emits nothing without
unauthorized contributors, and exactly one violation otherwise, whose
severity is `"high"` precisely when the summed `total_changes` of commits
attributed to unauthorized contributors exceeds 100 — in particular
`"medium"` when no commit is attributed to any of them. -/
theorem c4_unauthorized_severity (team : Team) (repo : RepositoryInfo) :
    ((unauthorizedContributors team repo).isEmpty = true →
      checkUnauthorizedContributors team repo = []) ∧
    ((unauthorizedContributors team repo).isEmpty = false →
      ∃ v, checkUnauthorizedContributors team repo = [v] ∧
        (v.severity =
          if ((unauthorizedCommits team repo).map
              (fun c => c.total_changes)).sum > 100
          then "high" else "medium") ∧
        (unauthorizedCommits team repo = [] → v.severity = "medium")) := by
  constructor
  · intro h
    unfold checkUnauthorizedContributors
    rw [if_pos h]
  · intro h
    unfold checkUnauthorizedContributors
    rw [if_neg (isEmpty_false_ne h)]
    refine ⟨_, rfl, rfl, ?_⟩
    intro hnil
    show (if ((unauthorizedCommits team repo).map
        (fun c => c.total_changes)).sum > 100 then "high" else "medium") = _
    rw [hnil]
    decide

/-- C4 witness: `EvilBot` is an unauthorized contributor of the sample
repository but has no attributed commits, so the single violation is
`"medium"`. -/
theorem c4_unauthorized_severity_witness :
    (checkUnauthorizedContributors wTeam wRepoUnauth).map
      (fun v => v.severity) = ["medium"] := by
  obtain ⟨-, h⟩ := c4_unauthorized_severity wTeam wRepoUnauth
  obtain ⟨v, heq, hsev, hz⟩ := h (by decide)
  rw [heq, List.map_cons, List.map_nil, hz (by rfl)]

/-- Membership in the enumerate loop of `_check_large_initial_commits`:
exactly the violations built from an offending commit at its sorted index. -/
theorem mem_largeLoop (acfg : AnalysisConfig) (k : Nat) (l : List CommitInfo)
    (v : Violation) :
    v ∈ largeLoop acfg k l ↔
      ∃ i c, l[i]? = some c ∧ offendsLarge acfg c = true ∧
        v = largeViolation acfg (k + i) c := by
  induction l generalizing k with
  | nil => simp [largeLoop]
  | cons c rest ih =>
    constructor
    · intro h
      simp only [largeLoop, List.mem_append] at h
      rcases h with h | h
      · by_cases ho : offendsLarge acfg c
        · rw [if_pos ho, List.mem_singleton] at h
          exact ⟨0, c, List.getElem?_cons_zero, ho, by rw [h, Nat.add_zero]⟩
        · rw [if_neg ho] at h
          exact absurd h (List.not_mem_nil v)
      · obtain ⟨i, d, hg, ho, hv⟩ := (ih (k + 1)).mp h
        refine ⟨i + 1, d, by simpa using hg, ho, ?_⟩
        rw [hv]
        congr 1
        omega
    · rintro ⟨i, d, hg, ho, hv⟩
      simp only [largeLoop, List.mem_append]
      cases i with
      | zero =>
        left
        rw [List.getElem?_cons_zero] at hg
        injection hg with hcd
        subst hcd
        rw [if_pos ho, List.mem_singleton, hv, Nat.add_zero]
      | succ j =>
        right
        rw [List.getElem?_cons_succ] at hg
        refine (ih (k + 1)).mpr ⟨j, d, hg, ho, ?_⟩
        rw [hv]
        congr 1
        omega

/-- C5: `_check_large_initial_commits` sorts by timestamp and flags exactly
the commits over the threshold; the violation built from sorted index `i` is
`"high"` when `i = 0` and `"medium"` otherwise, and records `i` as
`commit_index` in its evidence. -/
theorem c5_large_initial_commits (acfg : AnalysisConfig)
    (repo : RepositoryInfo) :
    (∀ v ∈ checkLargeInitialCommits acfg repo,
      ∃ i c, (sortedCommits repo)[i]? = some c ∧
        offendsLarge acfg c = true ∧
        v.severity = (if i = 0 then "high" else "medium") ∧
        evNat v.evidence "commit_index" = some i) ∧
    (∀ i c, (sortedCommits repo)[i]? = some c →
      offendsLarge acfg c = true →
      ∃ v ∈ checkLargeInitialCommits acfg repo,
        v.severity = (if i = 0 then "high" else "medium") ∧
        evNat v.evidence "commit_index" = some i) := by
  have hsev : ∀ (i : Nat) (c : CommitInfo),
      (largeViolation acfg i c).severity =
        (if i = 0 then "high" else "medium") := fun i c => rfl
  have hev : ∀ (i : Nat) (c : CommitInfo),
      evNat (largeViolation acfg i c).evidence "commit_index" = some i :=
    fun i c => rfl
  constructor
  · intro v hv
    unfold checkLargeInitialCommits at hv
    by_cases hre : repo.commits.isEmpty
    · rw [if_pos hre] at hv
      exact absurd hv (List.not_mem_nil v)
    · rw [if_neg hre] at hv
      obtain ⟨i, c, hg, ho, hveq⟩ := (mem_largeLoop acfg 0 _ v).mp hv
      rw [Nat.zero_add] at hveq
      exact ⟨i, c, hg, ho, by rw [hveq]; exact hsev i c,
        by rw [hveq]; exact hev i c⟩
  · intro i c hg ho
    unfold checkLargeInitialCommits
    by_cases hre : repo.commits.isEmpty
    · exfalso
      have hnil : sortedCommits repo = [] := by
        unfold sortedCommits
        rw [List.isEmpty_iff.mp hre]
        rfl
      rw [hnil] at hg
      simp at hg
    · rw [if_neg hre]
      refine ⟨largeViolation acfg (0 + i) c,
        (mem_largeLoop acfg 0 _ _).mpr ⟨i, c, hg, ho, rfl⟩, ?_, ?_⟩
      · rw [Nat.zero_add]
        exact hsev i c
      · rw [Nat.zero_add]
        exact hev i c

/-- C5 witness: in the sample repository the commit at sorted index 1 (the
600-change commit, despite appearing first in the raw list) yields a
`"medium"` violation recording `commit_index = 1`. -/
theorem c5_large_initial_commits_witness :
    (checkLargeInitialCommits sampleACfg wRepoBig).any
      (fun v => v.severity == "medium" &&
        (evNat v.evidence "commit_index" == some 1)) = true := by
  obtain ⟨-, hback⟩ := c5_large_initial_commits sampleACfg wRepoBig
  obtain ⟨v, hmem, hsev, hidx⟩ :=
    hback 1 (mkC "b2" 1200 600 1) (by rfl) (by decide)
  refine List.any_eq_true.mpr ⟨v, hmem, ?_⟩
  show (v.severity == "medium" &&
    (evNat v.evidence "commit_index" == some 1)) = true
  rw [hsev, hidx]
  decide

theorem mem_ite_singleton {α : Type} {c : Prop} [Decidable c] {v x : α}
    (h : v ∈ (if c then [x] else [])) : v = x := by
  by_cases hc : c
  · rw [if_pos hc, List.mem_singleton] at h
    exact h
  · rw [if_neg hc] at h
    exact absurd h (List.not_mem_nil v)

theorem mem_ite_singleton_else {α : Type} {c : Prop} [Decidable c] {v x : α}
    (h : v ∈ (if c then [] else [x])) : v = x := by
  by_cases hc : c
  · rw [if_pos hc] at h
    exact absurd h (List.not_mem_nil v)
  · rw [if_neg hc, List.mem_singleton] at h
    exact h

theorem sevOk_checkCommitTiming (cfg : HackathonConfig)
    (repo : RepositoryInfo) : ∀ v ∈ checkCommitTiming cfg repo, sevOk v := by
  intro v hv
  unfold checkCommitTiming at hv
  rcases List.mem_append.mp hv with h | h
  · rw [mem_ite_singleton_else h]
    unfold sevOk
    dsimp only
    split
    · exact Or.inl rfl
    · exact Or.inr (Or.inl rfl)
  · rw [mem_ite_singleton_else h]
    unfold sevOk
    dsimp only
    split
    · exact Or.inr (Or.inr rfl)
    · exact Or.inl rfl

theorem sevOk_checkUnauthorized (team : Team) (repo : RepositoryInfo) :
    ∀ v ∈ checkUnauthorizedContributors team repo, sevOk v := by
  intro v hv
  unfold checkUnauthorizedContributors at hv
  rw [mem_ite_singleton_else hv]
  unfold sevOk
  dsimp only
  split
  · exact Or.inl rfl
  · exact Or.inr (Or.inl rfl)

theorem sevOk_checkLarge (acfg : AnalysisConfig) (repo : RepositoryInfo) :
    ∀ v ∈ checkLargeInitialCommits acfg repo, sevOk v := by
  intro v hv
  unfold checkLargeInitialCommits at hv
  by_cases hre : repo.commits.isEmpty
  · rw [if_pos hre] at hv
    exact absurd hv (List.not_mem_nil v)
  · rw [if_neg hre] at hv
    obtain ⟨i, c, -, -, hveq⟩ := (mem_largeLoop acfg 0 _ v).mp hv
    rw [hveq]
    unfold sevOk largeViolation
    dsimp only
    split
    · exact Or.inl rfl
    · exact Or.inr (Or.inl rfl)

theorem sevOk_checkExcessive (cfg : HackathonConfig) (team : Team)
    (repo : RepositoryInfo) :
    ∀ v ∈ checkExcessiveContributors cfg team repo, sevOk v := by
  intro v hv
  unfold checkExcessiveContributors at hv
  rw [mem_ite_singleton hv]
  exact Or.inl rfl

theorem sevOk_checkRapid (acfg : AnalysisConfig) (repo : RepositoryInfo) :
    ∀ v ∈ checkRapidCommits acfg repo, sevOk v := by
  intro v hv
  unfold checkRapidCommits at hv
  obtain ⟨w, -, hw⟩ := List.mem_filterMap.mp hv
  split at hw
  · injection hw with hw
    rw [← hw]
    exact Or.inr (Or.inl rfl)
  · exact absurd hw (by simp)

theorem sevOk_checkIdentical (repo : RepositoryInfo) :
    ∀ v ∈ checkIdenticalTimestamps repo, sevOk v := by
  intro v hv
  unfold checkIdenticalTimestamps at hv
  rw [mem_ite_singleton_else hv]
  exact Or.inr (Or.inr rfl)

theorem sevOk_checkSuspicious (acfg : AnalysisConfig)
    (repo : RepositoryInfo) :
    ∀ v ∈ checkSuspiciousPatterns acfg repo, sevOk v := by
  intro v hv
  unfold checkSuspiciousPatterns at hv
  by_cases hre : repo.commits.isEmpty
  · rw [if_pos hre] at hv
    exact absurd hv (List.not_mem_nil v)
  · rw [if_neg hre] at hv
    rcases List.mem_append.mp hv with h | h
    · exact sevOk_checkRapid acfg repo v h
    · exact sevOk_checkIdentical repo v h

theorem sevOk_compareAgainstReference (eng : CodeComparisonEngine)
    (file : CodeFile) :
    ∀ v ∈ compareAgainstReference eng file, sevOk v := by
  intro v hv
  unfold compareAgainstReference at hv
  rcases List.mem_append.mp hv with h | h
  · rcases List.mem_append.mp h with h | h
    · split at h
      · rw [List.mem_singleton] at h
        rw [h]
        exact Or.inl rfl
      · split at h
        · rw [List.mem_singleton] at h
          rw [h]
          exact Or.inr (Or.inl rfl)
        · exact absurd h (List.not_mem_nil v)
    · rw [mem_ite_singleton h]
      exact Or.inl rfl
  · rw [mem_ite_singleton h]
    exact Or.inr (Or.inl rfl)

theorem sevOk_analyzeCodeFiles (eng : CodeComparisonEngine)
    (files : List CodeFile) (tname : String) :
    ∀ v ∈ analyzeCodeFiles eng files tname, sevOk v := by
  intro v hv
  unfold analyzeCodeFiles at hv
  split at hv
  · exact absurd hv (List.not_mem_nil v)
  · obtain ⟨l, hl, hvl⟩ := List.mem_flatten.mp hv
    obtain ⟨f, -, hf⟩ := List.mem_map.mp hl
    rw [← hf] at hvl
    exact sevOk_compareAgainstReference eng f v hvl

theorem sevOk_checkCodeReuse (eng : CodeComparisonEngine)
    (getFiles : String → Except String (List CodeFile))
    (team : Team) (repo : RepositoryInfo) :
    ∀ v ∈ checkCodeReuse eng getFiles team repo, sevOk v := by
  intro v hv
  unfold checkCodeReuse at hv
  split at hv
  · exact absurd hv (List.not_mem_nil v)
  · split at hv
    · exact absurd hv (List.not_mem_nil v)
    · exact sevOk_analyzeCodeFiles _ _ _ v hv

theorem sevOk_analyzeTeamViolations (cfg : HackathonConfig)
    (acfg : AnalysisConfig) (engine : Option CodeComparisonEngine)
    (getFiles : Option (String → Except String (List CodeFile)))
    (team : Team) (repo : RepositoryInfo) :
    ∀ v ∈ analyzeTeamViolations cfg acfg engine getFiles team repo, sevOk v := by
  intro v hv
  unfold analyzeTeamViolations at hv
  rcases List.mem_append.mp hv with h | h
  rotate_left
  · rcases getFiles with _ | gf <;> rcases engine with _ | eng <;>
      first
        | exact absurd h (List.not_mem_nil v)
        | exact sevOk_checkCodeReuse eng gf team repo v h
  rcases List.mem_append.mp h with h | h
  rotate_left
  · exact sevOk_checkSuspicious acfg repo v h
  rcases List.mem_append.mp h with h | h
  rotate_left
  · exact sevOk_checkExcessive cfg team repo v h
  rcases List.mem_append.mp h with h | h
  rotate_left
  · exact sevOk_checkLarge acfg repo v h
  rcases List.mem_append.mp h with h | h
  · exact sevOk_checkCommitTiming cfg repo v h
  · exact sevOk_checkUnauthorized team repo v h

/-- C10: every violation severity produced by the analyzer or the code
comparison engine is one of `"high"`, `"medium"`, `"low"` — both for the
violations attached to an `analyze_team` result and for those produced by
`analyze_code_files`. -/
theorem c10_severity_closed_set (cfg : HackathonConfig)
    (acfg : AnalysisConfig) (engine : Option CodeComparisonEngine)
    (getFiles : Option (String → Except String (List CodeFile)))
    (team : Team) (repo : RepositoryInfo) (now : Int) :
    (∀ v ∈ (analyzeTeam cfg acfg engine getFiles team repo now).violations,
      v.severity = "high" ∨ v.severity = "medium" ∨ v.severity = "low") ∧
    (∀ (eng : CodeComparisonEngine) (files : List CodeFile) (tname : String),
      ∀ v ∈ analyzeCodeFiles eng files tname,
        v.severity = "high" ∨ v.severity = "medium" ∨ v.severity = "low") := by
  constructor
  · intro v hv
    exact sevOk_analyzeTeamViolations cfg acfg engine getFiles team repo v hv
  · intro eng files tname v hv
    exact sevOk_analyzeCodeFiles eng files tname v hv

/-- C10 witness: every severity in a concrete flagged analysis is in the
closed set (checked through the claim theorem at the sample inputs). -/
theorem c10_severity_closed_set_witness :
    (analyzeTeam sampleCfg sampleACfg none none wTeam wRepoSixEarly 0).violations.all
      (fun v => v.severity == "high" || v.severity == "medium" ||
        v.severity == "low") = true := by
  refine List.all_eq_true.mpr (fun v hv => ?_)
  rcases (c10_severity_closed_set sampleCfg sampleACfg none none wTeam
      wRepoSixEarly 0).1 v hv with h | h | h <;> simp [h]

/-- C1 counterexample: the five rule checks of `analyze_team` run with no
surrounding `try/except`, so a failure in the first check propagates out of
`analyze_team` and suppresses every sibling check, instead of degrading to
"no evidence from this check". -/
theorem c1_counterexample :
    analyzeTeamExc (fun _ => .error "boom")
      (fun t r => .ok (checkUnauthorizedContributors t r))
      (fun r => .ok (checkLargeInitialCommits sampleACfg r))
      (fun t r => .ok (checkExcessiveContributors sampleCfg t r))
      (fun r => .ok (checkSuspiciousPatterns sampleACfg r))
      none wTeam wRepo 0 = .error "boom" := rfl

/-- C1 (amended): fault isolation holds only at the `_check_code_reuse`
boundary: when the file fetch of the optional code-reuse check fails, the
analysis still returns the result built from the five rule checks alone
(the failing check contributes no evidence); failures of the five rule
checks themselves propagate (see the counterexample). -/
theorem c1_code_reuse_isolated (cfg : HackathonConfig)
    (acfg : AnalysisConfig) (team : Team) (repo : RepositoryInfo) (now : Int)
    (e : String) (getFiles : String → Except String (List CodeFile))
    (analyze : List CodeFile → String → Except String (List Violation))
    (hfail : getFiles repo.url = .error e) :
    analyzeTeamExc (fun r => .ok (checkCommitTiming cfg r))
      (fun t r => .ok (checkUnauthorizedContributors t r))
      (fun r => .ok (checkLargeInitialCommits acfg r))
      (fun t r => .ok (checkExcessiveContributors cfg t r))
      (fun r => .ok (checkSuspiciousPatterns acfg r))
      (some (getFiles, analyze)) team repo now =
      .ok (analyzeTeam cfg acfg none none team repo now) := by
  simp only [analyzeTeamExc, hfail]
  rfl

/-- C1 witness: with a fetch collaborator that always fails, the analysis of
the sample team equals the plain five-check analysis. -/
theorem c1_code_reuse_isolated_witness :
    analyzeTeamExc (fun r => .ok (checkCommitTiming sampleCfg r))
      (fun t r => .ok (checkUnauthorizedContributors t r))
      (fun r => .ok (checkLargeInitialCommits sampleACfg r))
      (fun t r => .ok (checkExcessiveContributors sampleCfg t r))
      (fun r => .ok (checkSuspiciousPatterns sampleACfg r))
      (some (fun _ => .error "network down", fun _ _ => .ok []))
      wTeam wRepo 0 =
      .ok (analyzeTeam sampleCfg sampleACfg none none wTeam wRepo 0) :=
  c1_code_reuse_isolated sampleCfg sampleACfg wTeam wRepo 0 "network down"
    _ _ rfl

/-- C9 (code bug): the per-team `try/except` of `analyze_all_teams` calls
`_create_error_result`, which re-invokes the fallible
`convert_to_team_model` outside any handler.  For a roster whose first team
has five members the conversion raises twice and the second raise aborts the
whole run — no placeholder result, and the remaining teams are never
analyzed — contradicting "one result per requested team, failures never
abort the run".  A fetch failure after a successful conversion, by contrast,
does get its placeholder and the run completes. -/
theorem c9_driver_aborts_on_unparseable_team :
    resultError (analyzeAllTeams wFetch sampleCfg sampleACfg none none 0
      [wBadTeamData, wGoodTeamData]) =
      some "Team size exceeds maximum allowed (4)" ∧
    resultCount (analyzeAllTeams wFetch sampleCfg sampleACfg none none 0
      [wGoodTeamData, wFetchFailTeamData]) = some 2 :=
  ⟨rfl, rfl⟩

end UHC

